import Mathlib

/-!
# JPEG coefficient steganography: model of `jpeg.cpp`

A shallow embedding of the class `jpeg_conceal` and of the free function
`correlation` from `src/jpeg.cpp`.

* A coefficient (`ushort`) is a natural number below `2 ^ 16`.
* The coefficient arrays of the image, walked by `pass` in the fixed order
  component / block row / sample row / block column / position in block, are
  one `List Nat` in that order.  Each cell is taken to be visited once in a
  pass, as the loop nest does when every component has `v_samp_factor` 1;
  the JPEG library that hands out the arrays is not modelled.
* The three tables `total`, `occur`, `count` (`std::array<uint, 1 << 16>`)
  are functions `Nat → Nat`; every `uint` operation is reduced modulo
  `2 ^ 32`, every `ulong` operation modulo `2 ^ 64`, every `uchar` operation
  modulo `2 ^ 8`.
* `msg` (a `std::span<uchar>`) is `none` when `msg.data()` is the null
  pointer and `some bytes` otherwise.
* The operating-system random source and the floating point comparison with
  `entropy` in `bit_write` are two parameters: `rnd n` is the 16-bit value
  delivered by the `n`-th call of `getentropy`, and `above r` is the outcome
  of `static_cast<double>(r) / 0xffff >= entropy`.
* A member function that may throw returns an `Option`, `none` for the
  exception.

The definitions come first; the statements about them follow, grouped by
subject.
-/

namespace JpegConceal

/-- Value of an expression of type `unsigned int`. -/
def u32 (x : Nat) : Nat := x % 2 ^ 32

/-- Value of an expression of type `unsigned long`. -/
def u64 (x : Nat) : Nat := x % 2 ^ 64

/-- Value of an expression converted to `ushort`. -/
def u16 (x : Nat) : Nat := x % 2 ^ 16

/-- Value of an expression converted to `uchar`. -/
def u8 (x : Nat) : Nat := x % 2 ^ 8

/-- The function `correlation` of `jpeg.cpp`.  The argument is promoted to
`unsigned int` before `2u` is added, so the sum is taken modulo `2 ^ 32`. -/
def correlation (coef : Nat) : Nat :=
  if u32 (coef + 2) ≤ 4 ∨ coef = 0x7fff then 0
  else if coef > 0x7fff then u16 (coef ^^^ 1)
  else u16 (u32 ((u32 (coef + (2 ^ 32 - 1)) ^^^ 1) + 1))

def INVALID : Nat := 4
def RESTORE : Nat := 3
def PADDING : Nat := 2

/-- The mutable members of `jpeg_conceal` that the passes use.  `rnd_calls`
counts the calls of `getentropy` made so far. -/
structure Conceal where
  total : Nat → Nat
  occur : Nat → Nat
  count : Nat → Nat
  msg : Option (List Nat)
  msg_byte : Nat
  msg_bit : Nat
  rnd_calls : Nat

/-- The statement `table[u]++` on a table of `uint`. -/
def incr (table : Nat → Nat) (u : Nat) : Nat → Nat :=
  Function.update table u (u32 (table u + 1))

/-- The value of `msg.size()`. -/
def msg_size (s : Conceal) : Nat :=
  match s.msg with
  | none => 0
  | some bytes => bytes.length

/-- The value of `msg[i]`. -/
def msg_at (s : Conceal) (i : Nat) : Nat :=
  match s.msg with
  | none => 0
  | some bytes => bytes.getD i 0

/-- The member function `bit_test`. -/
def bit_test (s : Conceal) (coef corr : Nat) : Nat :=
  if coef = 0 ∨ corr = 0 ∨ s.total coef = 0 ∨ s.total corr = 0 then INVALID
  else if s.occur coef ≥ s.total coef then RESTORE
  else if s.occur corr ≥ s.total corr then PADDING
  else
    let seen := if s.occur coef ≠ 0 then u32 (s.count coef <<< 16) / s.occur coef else 0
    let quota := u32 (s.total coef <<< 16) / s.total corr
    if seen < quota then coef &&& 1 else PADDING

/-- The two statements `msg_byte += (++msg_bit >> 3u) & 1u; msg_bit &= 7u;`. -/
def advance (s : Conceal) : Conceal :=
  { s with
    msg_byte := u64 (s.msg_byte + ((u8 (s.msg_bit + 1) >>> 3) &&& 1))
    msg_bit := u8 (s.msg_bit + 1) &&& 7 }

/-- The member function `bit_write`; the result is the new state and the
value left in the cell `*coef_ptr`. -/
def bit_write (rnd : Nat → Nat) (above : Nat → Bool) (s : Conceal) (coef : Nat) :
    Conceal × Nat :=
  let corr := correlation coef
  let bwas := bit_test s coef corr
  if bwas = INVALID then (s, coef)
  else if bwas = RESTORE then ({ s with occur := incr s.occur corr }, corr)
  else if bwas = PADDING then ({ s with occur := incr s.occur coef }, coef)
  else if s.msg_byte < msg_size s then
    let bset := (msg_at s s.msg_byte >>> s.msg_bit) &&& 1
    if bwas = bset then
      let s1 := advance { s with count := incr s.count coef }
      ({ s1 with occur := incr s1.occur coef }, coef)
    else
      let s1 := if bit_test s corr coef = bset
        then advance { s with count := incr s.count corr } else s
      ({ s1 with occur := incr s1.occur corr }, corr)
  else
    let s0 := { s with rnd_calls := s.rnd_calls + 1 }
    let bset := if above (rnd s.rnd_calls) then 1 else 0
    if bwas = bset then
      let s1 := { s0 with count := incr s0.count coef }
      ({ s1 with occur := incr s1.occur coef }, coef)
    else
      let s1 := if bit_test s0 corr coef = bset
        then { s0 with count := incr s0.count corr } else s0
      ({ s1 with occur := incr s1.occur corr }, corr)

/-- The statement `msg[msg_byte] |= bit << msg_bit`. -/
def store_bit (s : Conceal) (bit : Nat) : Conceal :=
  { s with msg := s.msg.map fun bytes =>
      bytes.set s.msg_byte (u8 (bytes.getD s.msg_byte 0 ||| (bit <<< s.msg_bit))) }

/-- The member function `bit_read`. -/
def bit_read (s : Conceal) (coef : Nat) : Conceal :=
  if s.msg.isSome ∧ s.msg_byte ≥ msg_size s then s
  else
    let bit := bit_test s coef (correlation coef)
    let s1 := if bit < PADDING
      then advance (store_bit { s with count := incr s.count coef } bit) else s
    { s1 with occur := incr s1.occur coef }

inductive pass_t where
  | INIT
  | WRITE
  | READ
  deriving DecidableEq

/-- The initialisation `switch` at the head of `pass`. -/
def pass_init (type : pass_t) (s : Conceal) : Conceal :=
  match type with
  | .INIT => { s with total := fun _ => 0 }
  | _ => { s with occur := fun _ => 0, count := fun _ => 0, msg_byte := 0, msg_bit := 0 }

/-- The `switch` in the innermost loop of `pass`, applied to one cell. -/
def pass_cell (rnd : Nat → Nat) (above : Nat → Bool) (type : pass_t) (s : Conceal)
    (coef : Nat) : Conceal × Nat :=
  match type with
  | .INIT => ({ s with total := incr s.total coef }, coef)
  | .WRITE => bit_write rnd above s coef
  | .READ => (bit_read s coef, coef)

/-- The loop nest of `pass` over the cells in their fixed order; the result is
the final state and the cells as the loop leaves them. -/
def pass_loop (rnd : Nat → Nat) (above : Nat → Bool) (type : pass_t) :
    Conceal → List Nat → Conceal × List Nat
  | s, [] => (s, [])
  | s, coef :: rest =>
    let r := pass_cell rnd above type s coef
    let w := pass_loop rnd above type r.1 rest
    (w.1, r.2 :: w.2)

/-- The member function `pass`. -/
def pass (rnd : Nat → Nat) (above : Nat → Bool) (type : pass_t) (s : Conceal)
    (cells : List Nat) : Conceal × List Nat :=
  pass_loop rnd above type (pass_init type s) cells

/-- The READ pass: it reads no random number and leaves the cells alone. -/
def pass_read (s : Conceal) (cells : List Nat) : Conceal :=
  (pass (fun _ => 0) (fun _ => false) .READ s cells).1

/-- The member function `current_size`: the state it leaves and its result. -/
def current_size (s : Conceal) (cells : List Nat) : Conceal × Nat :=
  let s1 := pass_read { s with msg := none } cells
  (s1, s1.msg_byte)

/-- The span built from `calloc(1, size)`.  A request of zero bytes may
return the null pointer or not; `null_on_zero` says which. -/
def calloc_span (null_on_zero : Bool) (size : Nat) : Option (List Nat) :=
  if size = 0 ∧ null_on_zero = true then none else some (List.replicate size 0)

/-- The member function `read`: `none` when it throws, otherwise the state it
leaves and the bytes of the span it returns. -/
def read (null_on_zero : Bool) (s : Conceal) (cells : List Nat) :
    Option (Conceal × List Nat) :=
  let r := current_size s cells
  let s1 := pass_read { r.1 with msg := calloc_span null_on_zero r.2 } cells
  if s1.msg_byte ≠ msg_size s1 then none
  else some (s1, s1.msg.getD [])

/-- The WRITE pass of `write(message)`: the state and the cells after it. -/
def pass_write (rnd : Nat → Nat) (above : Nat → Bool) (s : Conceal)
    (message cells : List Nat) : Conceal × List Nat :=
  pass rnd above .WRITE { s with msg := some message } cells

/-- The member function `write`, up to the serialisation of the cells:
`none` when it throws, otherwise the state and the cells that are written to
the new image. -/
def write (rnd : Nat → Nat) (above : Nat → Bool) (s : Conceal)
    (message cells : List Nat) : Option (Conceal × List Nat) :=
  let r := pass_write rnd above s message cells
  if r.1.msg_byte ≠ msg_size r.1 then none else some r

/-- The state of a `jpeg_conceal` whose `total` table is given; the other
members are overwritten before any pass reads them. -/
def with_total (total : Nat → Nat) : Conceal :=
  { total := total, occur := fun _ => 0, count := fun _ => 0, msg := none,
    msg_byte := 0, msg_bit := 0, rnd_calls := 0 }

/-- The `total` table after the INIT pass run by the constructor. -/
def histogram (cells : List Nat) : Nat → Nat :=
  (pass (fun _ => 0) (fun _ => false) .INIT (with_total fun _ => 0) cells).1.total


/-- The bit cursor `(msg_byte, msg_bit)` as a number of bits. -/
def pos (s : Conceal) : Nat := 8 * s.msg_byte + s.msg_bit

/-- The bits (results 0 and 1 only) that `bit_test` returns to `bit_read`,
cell after cell in the order of the walk, from the state `s` on. -/
def read_bits : Conceal → List Nat → List Nat
  | _, [] => []
  | s, coef :: rest =>
    let bit := bit_test s coef (correlation coef)
    (if bit < PADDING then [bit] else []) ++ read_bits (bit_read s coef) rest

/-- The bits returned by `bit_test` during the READ pass of `current_size`
(the pass without destination). -/
def measure_bits (s : Conceal) (cells : List Nat) : List Nat :=
  read_bits (pass_init .READ { s with msg := none }) cells

/-- Bit `p` of a byte sequence, bits counted from the least significant bit
of byte 0 upwards. -/
def buf_bit (buf : List Nat) (p : Nat) : Bool := (buf.getD (p / 8) 0).testBit (p % 8)

/-- The bits carried by the WRITE pass from the state `s` on: after each call
of `bit_write`, the class that `bit_test` gives, in the state before the
call, to the value left in the cell, when that class is 0 or 1. -/
def write_bits (rnd : Nat → Nat) (above : Nat → Bool) : Conceal → List Nat → List Nat
  | _, [] => []
  | s, coef :: rest =>
    let r := bit_write rnd above s coef
    let bit := bit_test s r.2 (correlation r.2)
    (if bit < PADDING then [bit] else []) ++ write_bits rnd above r.1 rest

/-- The value `u` is paired and both it and its partner occur in `total`:
the first test of `bit_test` does not answer INVALID. -/
def live (total : Nat → Nat) (u : Nat) : Prop :=
  ¬ (u = 0 ∨ correlation u = 0 ∨ total u = 0 ∨ total (correlation u) = 0)

/-- Bit `i` of the payload, as `bit_write` extracts it:
`(msg[i / 8] >> (i % 8)) & 1`. -/
def payload_bit (message : List Nat) (i : Nat) : Nat :=
  (message.getD (i / 8) 0 >>> (i % 8)) &&& 1

instance (total : Nat → Nat) : DecidablePred (live total) := fun u => by
  unfold live
  exact inferInstance

/-- The number of cells whose value `bit_test` does not class INVALID. -/
def carriers (total : Nat → Nat) (cells : List Nat) : Nat :=
  (cells.filter fun c => decide (live total c)).length

/-- The number of cells at which `bit_read` does not return early, from the
state `s` on. -/
def visited : Conceal → List Nat → Nat
  | _, [] => 0
  | s, coef :: rest =>
    (if s.msg.isSome ∧ s.msg_byte ≥ msg_size s then 0 else 1) + visited (bit_read s coef) rest

/-- The sum of a table over its `1 << 16` entries. -/
def table_sum (table : Nat → Nat) : Nat := Finset.sum (Finset.range 65536) table

/-- The comparison `rnd / 65535.0 >= entropy` of `bit_write` for the value
`entropy = zeros / (zeros + ones)` that the constructor computes, in exact
arithmetic; the quotient `0 / 0` is a NaN, with which every comparison is
false. -/
def above_entropy (zeros ones : Nat) (rnd : Nat) : Bool :=
  decide (zeros + ones ≠ 0 ∧ 65535 * zeros ≤ rnd * (zeros + ones))

/-- The counter invariant: `count[u] ≤ occur[u] ≤ total[u]` for every `u`. -/
def counters_ok (s : Conceal) : Prop :=
  ∀ u, s.count u ≤ s.occur u ∧ s.occur u ≤ s.total u

/-- The signed reading `(short) coef` of a 16-bit value. -/
def signed16 (u : Nat) : Int := if u < 32768 then (u : Int) else (u : Int) - 65536

/-- What the WRITE pass may do to one cell, `c` the value before and `v` the
value after: `v` is `c` or its partner, it differs from `c` by at most one as
a signed number, it has the sign of `c` and is zero exactly when `c` is, and
it is `c` when `c` has no partner or the partner has total zero. -/
def distortion_ok (total : Nat → Nat) (c v : Nat) : Prop :=
  (v = c ∨ v = correlation c) ∧
  (signed16 v - signed16 c ≤ 1 ∧ signed16 c - signed16 v ≤ 1) ∧
  (signed16 v < 0 ↔ signed16 c < 0) ∧
  (v = 0 ↔ c = 0) ∧
  (correlation c = 0 ∨ total (correlation c) = 0 → v = c)

/-- The classifier as the specification words it, in exact integers: the
same tests as `bit_test`, with `seen = floor (count[coef] * 2^16 / occur[coef])`
(0 when `occur[coef] = 0`) and `quota = floor (total[coef] * 2^16 / total[corr])`
computed without wrapping. -/
def bit_test_exact (s : Conceal) (coef corr : Nat) : Nat :=
  if coef = 0 ∨ corr = 0 ∨ s.total coef = 0 ∨ s.total corr = 0 then INVALID
  else if s.occur coef ≥ s.total coef then RESTORE
  else if s.occur corr ≥ s.total corr then PADDING
  else
    let seen := if s.occur coef ≠ 0 then s.count coef * 2 ^ 16 / s.occur coef else 0
    let quota := s.total coef * 2 ^ 16 / s.total corr
    if seen < quota then coef % 2 else PADDING

/-! ## The pairing function -/

theorem xor_one_eq (u : Nat) : u ^^^ 1 = 2 * (u / 2) + (u + 1) % 2 := by
  have h1 : (u ^^^ 1) % 2 = (u + 1) % 2 := Nat.xor_mod_two_eq
  have h2 : (u ^^^ 1) / 2 = u / 2 := by
    rw [Nat.xor_div_two]; simp
  omega

theorem and_one_eq (u : Nat) : u &&& 1 = u % 2 := Nat.and_one_is_mod u

/-- The pairing function in closed form on 16-bit values. -/
theorem correlation_eq (u : Nat) (hu : u < 65536) :
    correlation u =
      if u ≤ 2 ∨ u = 32767 then 0
      else if u % 2 = 1 then (if u < 32768 then u + 1 else u - 1)
      else (if u < 32768 then u - 1 else u + 1) := by
  unfold correlation u32 u16
  rw [xor_one_eq, xor_one_eq]
  split_ifs <;> omega

theorem correlation_lt (u : Nat) (hu : u < 65536) : correlation u < 65536 := by
  rw [correlation_eq u hu]
  split_ifs <;> omega

theorem correlation_invol (u : Nat) (hu : u < 65536) (h : correlation u ≠ 0) :
    correlation (correlation u) = u := by
  have hc := correlation_lt u hu
  rw [correlation_eq (correlation u) hc]
  rw [correlation_eq u hu] at h ⊢
  split_ifs at h ⊢ <;> omega

theorem correlation_parity (u : Nat) (hu : u < 65536) (h : correlation u ≠ 0) :
    correlation u % 2 ≠ u % 2 := by
  rw [correlation_eq u hu] at h ⊢
  split_ifs at h ⊢ <;> omega

/-- C5: for every 16-bit value `u`, if `correlation u` is not zero then
`correlation (correlation u) = u`. -/
theorem C5_correlation_involution (u : Nat) (hu : u < 65536)
    (h : correlation u ≠ 0) : correlation (correlation u) = u :=
  correlation_invol u hu h

theorem C5_correlation_involution_witness :
    (3 < 65536 ∧ correlation 3 ≠ 0) ∧ correlation (correlation 3) = 3 :=
  ⟨⟨by decide, by decide⟩, C5_correlation_involution 3 (by decide) (by decide)⟩

/-- C6: the values `-1` and `-2` (65535 and 65534) are not mapped to zero by
`correlation`: they are paired with each other, and the 16-bit values mapped
to zero are exactly 0, 1, 2 and 0x7fff. -/
theorem C6_correlation_minus_one_paired :
    correlation 65535 = 65534 ∧ correlation 65534 = 65535 ∧
      ∀ u, u < 65536 → (correlation u = 0 ↔ u = 0 ∨ u = 1 ∨ u = 2 ∨ u = 32767) := by
  refine ⟨by decide, by decide, ?_⟩
  intro u hu
  rw [correlation_eq u hu]
  constructor
  · intro h
    split_ifs at h <;> omega
  · intro h
    rw [if_pos (by omega)]

/-! ## Cursor arithmetic -/

theorem u64_le (x : Nat) : u64 x ≤ x := Nat.mod_le x _

theorem u32_le (x : Nat) : u32 x ≤ x := Nat.mod_le x _

theorem u32_of_lt {x : Nat} (h : x < 2 ^ 32) : u32 x = x := Nat.mod_eq_of_lt h

theorem advance_byte_bit (s : Conceal) (hb : s.msg_bit < 8) :
    (advance s).msg_byte = u64 (s.msg_byte + if s.msg_bit = 7 then 1 else 0) ∧
      (advance s).msg_bit = (s.msg_bit + 1) % 8 := by
  have h3 : ∀ x : Nat, x >>> 3 = x / 8 := fun x => by
    rw [Nat.shiftRight_eq_div_pow]
  have h7 : ∀ x : Nat, x &&& 7 = x % 8 := fun x => Nat.and_pow_two_sub_one_eq_mod x 3
  have h8 : u8 (s.msg_bit + 1) = s.msg_bit + 1 := Nat.mod_eq_of_lt (by omega)
  simp only [advance, h8, h3, h7, and_one_eq]
  constructor
  · congr 2
    split_ifs <;> omega
  · trivial

theorem advance_byte_le (s : Conceal) (hb : s.msg_bit < 8) :
    (advance s).msg_byte ≤ s.msg_byte + 1 := by
  rw [(advance_byte_bit s hb).1]
  refine le_trans (u64_le _) ?_
  split_ifs <;> omega

theorem advance_bit_lt (s : Conceal) (hb : s.msg_bit < 8) : (advance s).msg_bit < 8 := by
  rw [(advance_byte_bit s hb).2]
  omega

theorem advance_pos (s : Conceal) (hb : s.msg_bit < 8) (hm : s.msg_byte + 1 < 2 ^ 64) :
    pos (advance s) = pos s + 1 := by
  unfold pos
  rw [(advance_byte_bit s hb).1, (advance_byte_bit s hb).2]
  have : u64 (s.msg_byte + if s.msg_bit = 7 then 1 else 0) =
      s.msg_byte + if s.msg_bit = 7 then 1 else 0 :=
    Nat.mod_eq_of_lt (by split_ifs <;> omega)
  rw [this]
  split_ifs <;> omega

@[simp] theorem advance_total (s : Conceal) : (advance s).total = s.total := rfl
@[simp] theorem advance_occur (s : Conceal) : (advance s).occur = s.occur := rfl
@[simp] theorem advance_count (s : Conceal) : (advance s).count = s.count := rfl
@[simp] theorem advance_msg (s : Conceal) : (advance s).msg = s.msg := rfl
@[simp] theorem advance_rnd (s : Conceal) : (advance s).rnd_calls = s.rnd_calls := rfl

theorem bit_test_le (s : Conceal) (coef corr : Nat) : bit_test s coef corr ≤ 4 := by
  unfold bit_test INVALID RESTORE PADDING
  simp only [and_one_eq]
  split_ifs <;> omega

/-- The result of `bit_test` depends on the three tables only. -/
theorem bit_test_congr (s t : Conceal) (coef corr : Nat) (h1 : s.total = t.total)
    (h2 : s.occur = t.occur) (h3 : s.count = t.count) :
    bit_test s coef corr = bit_test t coef corr := by
  unfold bit_test
  rw [h1, h2, h3]

/-! ## The READ pass -/

theorem bit_read_none (s : Conceal) (coef : Nat) (h : s.msg = none) :
    bit_read s coef =
      if bit_test s coef (correlation coef) < PADDING then
        { advance { s with count := incr s.count coef } with occur := incr s.occur coef }
      else { s with occur := incr s.occur coef } := by
  obtain ⟨tt, oc, ct, m, mb, bi, rc⟩ := s
  simp only at h
  subst h
  unfold bit_read store_bit
  simp only [Option.isSome_none, Bool.false_eq_true, false_and, if_false, Option.map_none']
  split_ifs <;> rfl

theorem bit_read_full (s : Conceal) (coef : Nat) (buf : List Nat) (h : s.msg = some buf)
    (hfull : buf.length ≤ s.msg_byte) : bit_read s coef = s := by
  unfold bit_read msg_size
  simp only [h, Option.isSome_some, true_and, ge_iff_le, hfull, if_true]

theorem bit_read_some (s : Conceal) (coef : Nat) (buf : List Nat) (h : s.msg = some buf)
    (hlt : s.msg_byte < buf.length) :
    bit_read s coef =
      if bit_test s coef (correlation coef) < PADDING then
        { advance { s with
            count := incr s.count coef
            msg := some (buf.set s.msg_byte (u8 (buf.getD s.msg_byte 0 |||
              (bit_test s coef (correlation coef) <<< s.msg_bit)))) } with
          occur := incr s.occur coef }
      else { s with occur := incr s.occur coef } := by
  obtain ⟨tt, oc, ct, m, mb, bi, rc⟩ := s
  simp only at h hlt
  subst h
  unfold bit_read store_bit msg_size
  simp only [Option.isSome_some, true_and, ge_iff_le, Nat.not_le.mpr hlt, if_false,
    Option.map_some']
  split_ifs <;> rfl

theorem pass_loop_read_cons (rnd : Nat → Nat) (above : Nat → Bool) (s : Conceal)
    (coef : Nat) (rest : List Nat) :
    (pass_loop rnd above .READ s (coef :: rest)).1 =
      (pass_loop rnd above .READ (bit_read s coef) rest).1 := rfl

theorem bit_read_total (s : Conceal) (coef : Nat) : (bit_read s coef).total = s.total := by
  unfold bit_read store_bit
  dsimp only
  split_ifs <;> rfl

theorem bit_read_rnd (s : Conceal) (coef : Nat) :
    (bit_read s coef).rnd_calls = s.rnd_calls := by
  unfold bit_read store_bit
  dsimp only
  split_ifs <;> rfl

theorem bit_read_msg_none (s : Conceal) (coef : Nat) (h : s.msg = none) :
    (bit_read s coef).msg = none := by
  rw [bit_read_none s coef h]
  split_ifs <;> simpa using h

theorem bit_read_bit_lt (s : Conceal) (coef : Nat) (hb : s.msg_bit < 8) :
    (bit_read s coef).msg_bit < 8 := by
  unfold bit_read
  dsimp only
  split_ifs
  · exact hb
  · exact advance_bit_lt _ hb
  · exact hb

theorem pass_loop_read_total (rnd : Nat → Nat) (above : Nat → Bool) (cells : List Nat) :
    ∀ s : Conceal, (pass_loop rnd above .READ s cells).1.total = s.total ∧
      (pass_loop rnd above .READ s cells).1.rnd_calls = s.rnd_calls := by
  induction cells with
  | nil => intro s; exact ⟨rfl, rfl⟩
  | cons coef rest ih =>
    intro s
    rw [pass_loop_read_cons, (ih _).1, (ih _).2, bit_read_total, bit_read_rnd]
    exact ⟨rfl, rfl⟩

theorem pass_loop_read_msg_none (rnd : Nat → Nat) (above : Nat → Bool) (cells : List Nat) :
    ∀ s : Conceal, s.msg = none → (pass_loop rnd above .READ s cells).1.msg = none := by
  induction cells with
  | nil => intro s h; exact h
  | cons coef rest ih =>
    intro s h
    rw [pass_loop_read_cons]
    exact ih _ (bit_read_msg_none s coef h)

theorem pass_loop_read_cells (rnd : Nat → Nat) (above : Nat → Bool) (cells : List Nat) :
    ∀ s : Conceal, (pass_loop rnd above .READ s cells).2 = cells := by
  induction cells with
  | nil => intro s; rfl
  | cons coef rest ih =>
    intro s
    show coef :: (pass_loop rnd above .READ (bit_read s coef) rest).2 = coef :: rest
    rw [ih]

/-- A READ pass whose destination is already full changes nothing. -/
theorem pass_loop_read_full (rnd : Nat → Nat) (above : Nat → Bool) (cells : List Nat)
    (s : Conceal) (buf : List Nat) (h : s.msg = some buf) (hfull : buf.length ≤ s.msg_byte) :
    (pass_loop rnd above .READ s cells).1 = s := by
  induction cells with
  | nil => rfl
  | cons coef rest ih =>
    rw [pass_loop_read_cons, bit_read_full s coef buf h hfull]
    exact ih

/-- The READ pass with a destination of `n` bytes, run beside the READ pass
without destination: when the latter ends with `msg_byte = n`, so does the
former. -/
theorem fill_follows (rnd : Nat → Nat) (above : Nat → Bool) (n : Nat) (cells : List Nat) :
    ∀ (t r : Conceal) (buf : List Nat), t.msg = some buf → r.msg = none → buf.length = n →
      t.total = r.total → t.occur = r.occur → t.count = r.count →
      t.msg_byte = r.msg_byte → t.msg_bit = r.msg_bit → r.msg_bit < 8 → t.msg_byte ≤ n →
      (pass_loop rnd above .READ r cells).1.msg_byte = n →
      (pass_loop rnd above .READ t cells).1.msg_byte = n ∧
        msg_size (pass_loop rnd above .READ t cells).1 = n := by
  induction cells with
  | nil =>
    intro t r buf ht hr hlen _ _ _ hby _ _ _ hfin
    refine ⟨hby.trans hfin, ?_⟩
    show msg_size t = n
    unfold msg_size
    rw [ht]
    exact hlen
  | cons coef rest ih =>
    intro t r buf ht hr hlen h1 h2 h3 hby hbi hb hle hfin
    by_cases hfull : buf.length ≤ t.msg_byte
    · rw [pass_loop_read_full rnd above _ t buf ht hfull]
      refine ⟨by omega, ?_⟩
      unfold msg_size
      rw [ht]
      exact hlen
    · have hlt : t.msg_byte < buf.length := Nat.lt_of_not_le hfull
      rw [pass_loop_read_cons] at hfin ⊢
      have hbt : bit_test t coef (correlation coef) = bit_test r coef (correlation coef) :=
        bit_test_congr t r _ _ h1 h2 h3
      rw [bit_read_some t coef buf ht hlt, hbt]
      rw [bit_read_none r coef hr] at hfin
      by_cases hc : bit_test r coef (correlation coef) < PADDING
      · rw [if_pos hc] at hfin ⊢
        have hbt8 : t.msg_bit < 8 := by omega
        have e1 := advance_byte_bit { r with count := incr r.count coef } hb
        have e2 := advance_byte_bit { t with
            count := incr t.count coef
            msg := some (buf.set t.msg_byte (u8 (buf.getD t.msg_byte 0 |||
              (bit_test r coef (correlation coef) <<< t.msg_bit)))) } hbt8
        have e3 := advance_byte_le { t with
            count := incr t.count coef
            msg := some (buf.set t.msg_byte (u8 (buf.getD t.msg_byte 0 |||
              (bit_test r coef (correlation coef) <<< t.msg_bit)))) } hbt8
        refine ih _
          { advance { r with count := incr r.count coef } with occur := incr r.occur coef }
          _ rfl (by simpa using hr) (by simpa using hlen) h1
          (by simp [h2]) (by simp [h3]) ?_ ?_ ?_ ?_ hfin
        · show (advance _).msg_byte = (advance _).msg_byte
          rw [e1.1, e2.1]
          simp only [hby, hbi]
        · show (advance _).msg_bit = (advance _).msg_bit
          rw [e1.2, e2.2]
          simp only [hbi]
        · exact advance_bit_lt _ hb
        · show (advance _).msg_byte ≤ n
          simp only at e3
          omega
      · rw [if_neg hc] at hfin ⊢
        exact ih _ { r with occur := incr r.occur coef } buf ht hr hlen h1
          (by simp [h2]) (by simp [h3]) hby hbi hb hle hfin

/-- The second READ pass of `read` starts from the state from which the READ
pass of `current_size` started, up to the destination. -/
theorem read_init_eq (s : Conceal) (cells : List Nat) (m : Option (List Nat)) :
    pass_init .READ { (current_size s cells).1 with msg := m } =
      pass_init .READ { s with msg := m } := by
  have h := pass_loop_read_total (fun _ => 0) (fun _ => false) cells
    (pass_init .READ { s with msg := none })
  simp only [current_size, pass_read, pass, pass_init, Conceal.mk.injEq, and_true, true_and]
  exact ⟨h.1, h.2⟩

theorem current_size_eq (s : Conceal) (cells : List Nat) :
    (current_size s cells).2 =
      (pass_loop (fun _ => 0) (fun _ => false) .READ
        (pass_init .READ { s with msg := none }) cells).1.msg_byte := rfl

/-- Outcome of `read`: it does not throw, and the span it returns has
`current_size ()` bytes. -/
theorem read_ok (nz : Bool) (s : Conceal) (cells : List Nat) :
    ∃ r, read nz s cells = some r ∧ r.1.msg_byte = (current_size s cells).2 ∧
      r.2.length = (current_size s cells).2 ∧
      r.1 = (pass_loop (fun _ => 0) (fun _ => false) .READ
        (pass_init .READ { s with msg := calloc_span nz (current_size s cells).2 }) cells).1 ∧
      r.2 = r.1.msg.getD [] := by
  have key : (pass_read { (current_size s cells).1 with
        msg := calloc_span nz (current_size s cells).2 } cells).msg_byte =
        (current_size s cells).2 ∧
      msg_size (pass_read { (current_size s cells).1 with
        msg := calloc_span nz (current_size s cells).2 } cells) = (current_size s cells).2 ∧
      ((pass_read { (current_size s cells).1 with
        msg := calloc_span nz (current_size s cells).2 } cells).msg.getD []).length =
        (current_size s cells).2 := by
    unfold pass_read pass
    rw [read_init_eq]
    unfold calloc_span
    split_ifs with h0
    · have hm := pass_loop_read_msg_none (fun _ => 0) (fun _ => false) cells
        (pass_init .READ { s with msg := none }) rfl
      rw [← current_size_eq]
      refine ⟨rfl, ?_, ?_⟩
      · unfold msg_size
        rw [hm]
        exact h0.1.symm
      · rw [hm]
        exact h0.1.symm
    · have hf := fill_follows (fun _ => 0) (fun _ => false) (current_size s cells).2 cells
        (pass_init .READ { s with msg := some (List.replicate (current_size s cells).2 0) })
        (pass_init .READ { s with msg := none })
        (List.replicate (current_size s cells).2 0) rfl rfl (List.length_replicate _ _)
        rfl rfl rfl rfl rfl (by show 0 < 8; omega) (Nat.zero_le _) (current_size_eq s cells).symm
      refine ⟨hf.1, hf.2, ?_⟩
      have h2 := hf.2
      unfold msg_size at h2
      revert h2
      cases (pass_loop (fun _ => 0) (fun _ => false) pass_t.READ
        (pass_init pass_t.READ
          { s with msg := some (List.replicate (current_size s cells).2 0) }) cells).1.msg with
      | none => intro h2; simpa using h2
      | some b => intro h2; simpa using h2
  refine ⟨(pass_read { (current_size s cells).1 with
        msg := calloc_span nz (current_size s cells).2 } cells,
      (pass_read { (current_size s cells).1 with
        msg := calloc_span nz (current_size s cells).2 } cells).msg.getD []),
    ?_, key.1, key.2.2, ?_, rfl⟩
  · unfold read
    simp only
    rw [if_neg]
    rw [key.1, key.2.1]
    exact fun h => h rfl
  · show pass_read _ cells = _
    unfold pass_read pass
    rw [read_init_eq]

/-- C9: the READ pass of `read` into the zeroed buffer of `current_size ()`
bytes ends with `msg_byte` equal to that size, so `read` does not throw and
returns exactly `current_size ()` bytes. -/
theorem C9_read_never_incomplete (null_on_zero : Bool) (s : Conceal) (cells : List Nat) :
    ∃ r, read null_on_zero s cells = some r ∧
      r.1.msg_byte = (current_size s cells).2 ∧ r.2.length = (current_size s cells).2 := by
  obtain ⟨r, h1, h2, h3, _⟩ := read_ok null_on_zero s cells
  exact ⟨r, h1, h2, h3⟩

/-! ## Bits of the destination buffer -/

theorem testBit_small (bit i : Nat) (hbit : bit < 2) :
    bit.testBit i = decide (i = 0 ∧ bit = 1) := by
  interval_cases bit
  · simp
  · by_cases hi : i = 0
    · subst hi; simp
    · have : Nat.testBit 1 i = false := by
        cases h : Nat.testBit 1 i with
        | false => rfl
        | true => exact absurd (Nat.testBit_one_eq_true_iff_self_eq_zero.mp h) hi
      simp [this, hi]

/-- Effect of `msg[msg_byte] |= bit << msg_bit` on the bits of the buffer. -/
theorem buf_bit_set (buf : List Nat) (mb b bit : Nat) (hmb : mb < buf.length) (hb : b < 8)
    (hbit : bit < 2) (p : Nat) :
    buf_bit (buf.set mb (u8 (buf.getD mb 0 ||| (bit <<< b)))) p =
      (buf_bit buf p || decide (p = 8 * mb + b ∧ bit = 1)) := by
  unfold buf_bit u8
  have hp8 : p % 8 < 8 := Nat.mod_lt _ (by omega)
  by_cases hp : p / 8 = mb
  · have hget : (buf.set mb ((buf.getD mb 0 ||| (bit <<< b)) % 2 ^ 8)).getD (p / 8) 0 =
        (buf.getD mb 0 ||| (bit <<< b)) % 2 ^ 8 := by
      rw [hp, List.getD_eq_getElem?_getD, List.getElem?_set]
      simp [hmb]
    rw [hget, Nat.testBit_mod_two_pow, Nat.testBit_or, Nat.testBit_shiftLeft,
      testBit_small bit _ hbit, hp]
    have e1 : decide (p % 8 < 8) = true := by simpa using hp8
    rw [e1, Bool.true_and]
    congr 1
    by_cases hq : p = 8 * mb + b ∧ bit = 1
    · have h1 : p % 8 ≥ b := by omega
      have h2 : p % 8 - b = 0 := by omega
      simp [hq.2, h1, h2]
      omega
    · have : ¬ (p % 8 ≥ b ∧ p % 8 - b = 0 ∧ bit = 1) := by
        intro h
        apply hq
        refine ⟨?_, h.2.2⟩
        omega
      simp only [decide_eq_false hq]
      by_cases h1 : p % 8 ≥ b
      · by_cases h2 : p % 8 - b = 0
        · have h3 : ¬ bit = 1 := fun h3 => this ⟨h1, h2, h3⟩
          simp [h3]
        · simp [h2]
      · simp [h1]
  · have hget : (buf.set mb ((buf.getD mb 0 ||| (bit <<< b)) % 2 ^ 8)).getD (p / 8) 0 =
        buf.getD (p / 8) 0 := by
      rw [List.getD_eq_getElem?_getD, List.getElem?_set, if_neg (fun h => hp h.symm),
        ← List.getD_eq_getElem?_getD]
    rw [hget]
    have : ¬ (p = 8 * mb + b ∧ bit = 1) := by
      intro h
      apply hp
      omega
    simp [this]

theorem set_byte_lt (buf : List Nat) (mb v : Nat) (h : ∀ x ∈ buf, x < 256) :
    ∀ x ∈ buf.set mb (u8 v), x < 256 := by
  intro x hx
  rcases List.mem_or_eq_of_mem_set hx with h1 | h1
  · exact h x h1
  · rw [h1]
    exact Nat.mod_lt _ (by norm_num)

/-! ## The bits read and the cursor -/

theorem read_bits_cons (s : Conceal) (coef : Nat) (rest : List Nat) :
    read_bits s (coef :: rest) =
      (if bit_test s coef (correlation coef) < PADDING
        then [bit_test s coef (correlation coef)] else []) ++
      read_bits (bit_read s coef) rest := rfl

theorem bit_read_pos_none (s : Conceal) (coef : Nat) (h : s.msg = none)
    (hb : s.msg_bit < 8) (hm : s.msg_byte + 1 < 2 ^ 64) :
    pos (bit_read s coef) =
      pos s + if bit_test s coef (correlation coef) < PADDING then 1 else 0 := by
  rw [bit_read_none s coef h]
  split_ifs with hc
  · exact advance_pos { s with count := incr s.count coef } hb hm
  · rfl

/-- In the READ pass without destination the cursor counts the bits read. -/
theorem measure_pos (rnd : Nat → Nat) (above : Nat → Bool) (cells : List Nat) :
    ∀ s : Conceal, s.msg = none → s.msg_bit < 8 → pos s + cells.length < 2 ^ 64 →
      pos (pass_loop rnd above .READ s cells).1 = pos s + (read_bits s cells).length ∧
        (pass_loop rnd above .READ s cells).1.msg_bit < 8 := by
  induction cells with
  | nil => intro s _ hb _; exact ⟨rfl, hb⟩
  | cons coef rest ih =>
    intro s h hb hlen
    simp only [List.length_cons] at hlen
    have hm : s.msg_byte + 1 < 2 ^ 64 := by unfold pos at hlen; omega
    have hstep := bit_read_pos_none s coef h hb hm
    have hih := ih (bit_read s coef) (bit_read_msg_none s coef h) (bit_read_bit_lt s coef hb)
      (by rw [hstep]; split_ifs <;> omega)
    rw [pass_loop_read_cons, read_bits_cons, hih.1, hstep]
    refine ⟨?_, hih.2⟩
    split_ifs
    · simp; omega
    · simp

theorem not_full_none (s : Conceal) (h : s.msg = none) :
    ¬ (s.msg.isSome = true ∧ s.msg_byte ≥ msg_size s) := by
  rw [h]
  simp

theorem not_full_some (s : Conceal) (buf : List Nat) (h : s.msg = some buf)
    (hlt : s.msg_byte < buf.length) :
    ¬ (s.msg.isSome = true ∧ s.msg_byte ≥ msg_size s) := by
  unfold msg_size
  rw [h]
  simp only [Option.isSome_some, true_and, ge_iff_le]
  omega

/-- The members after `bit_read` when `bit_test` returned a bit. -/
theorem bit_read_hit (s : Conceal) (coef : Nat)
    (hnf : ¬ (s.msg.isSome = true ∧ s.msg_byte ≥ msg_size s))
    (hc : bit_test s coef (correlation coef) < PADDING) :
    (bit_read s coef).occur = incr s.occur coef ∧
      (bit_read s coef).count = incr s.count coef ∧
      (bit_read s coef).msg_byte = (advance s).msg_byte ∧
      (bit_read s coef).msg_bit = (advance s).msg_bit ∧
      (bit_read s coef).msg = s.msg.map (fun bytes =>
        bytes.set s.msg_byte (u8 (bytes.getD s.msg_byte 0 |||
          (bit_test s coef (correlation coef) <<< s.msg_bit)))) := by
  unfold bit_read
  dsimp only
  rw [if_neg hnf, if_pos hc]
  exact ⟨rfl, rfl, rfl, rfl, rfl⟩

/-- The members after `bit_read` when `bit_test` returned no bit. -/
theorem bit_read_miss (s : Conceal) (coef : Nat)
    (hnf : ¬ (s.msg.isSome = true ∧ s.msg_byte ≥ msg_size s))
    (hc : ¬ bit_test s coef (correlation coef) < PADDING) :
    (bit_read s coef).occur = incr s.occur coef ∧
      (bit_read s coef).count = s.count ∧
      (bit_read s coef).msg_byte = s.msg_byte ∧
      (bit_read s coef).msg_bit = s.msg_bit ∧
      (bit_read s coef).msg = s.msg := by
  unfold bit_read
  dsimp only
  rw [if_neg hnf, if_neg hc]
  exact ⟨rfl, rfl, rfl, rfl, rfl⟩

theorem pos_congr (s t : Conceal) (h1 : s.msg_byte = t.msg_byte) (h2 : s.msg_bit = t.msg_bit) :
    pos s = pos t := by
  unfold pos
  rw [h1, h2]

/-- The READ pass with a destination writes the bits read, in order, at the
bit positions from the cursor on, until the destination is full. -/
theorem fill_bits (rnd : Nat → Nat) (above : Nat → Bool) (cells : List Nat) :
    ∀ (t r : Conceal) (buf pre : List Nat), t.msg = some buf → r.msg = none →
      t.total = r.total → t.occur = r.occur → t.count = r.count →
      t.msg_byte = r.msg_byte → t.msg_bit = r.msg_bit → r.msg_bit < 8 →
      pos t + cells.length < 2 ^ 64 → pre.length = pos t →
      (∀ x ∈ buf, x < 256) →
      (∀ p, p < 8 * buf.length → buf_bit buf p = decide (pre.getD p 0 = 1)) →
      ∃ out, (pass_loop rnd above .READ t cells).1.msg = some out ∧
        out.length = buf.length ∧ (∀ x ∈ out, x < 256) ∧
        ∀ p, p < 8 * buf.length →
          buf_bit out p = decide ((pre ++ read_bits r cells).getD p 0 = 1) := by
  induction cells with
  | nil =>
    intro t r buf pre ht _ _ _ _ _ _ _ _ _ hlt hbits
    refine ⟨buf, ht, rfl, hlt, ?_⟩
    intro p hp
    rw [hbits p hp]
    simp [read_bits]
  | cons coef rest ih =>
    intro t r buf pre ht hr h1 h2 h3 hby hbi hb hlen hpre hlt hbits
    simp only [List.length_cons] at hlen
    have hbt8 : t.msg_bit < 8 := by omega
    by_cases hfull : buf.length ≤ t.msg_byte
    · rw [pass_loop_read_full rnd above _ t buf ht hfull]
      refine ⟨buf, ht, rfl, hlt, ?_⟩
      intro p hp
      rw [hbits p hp, List.getD_append]
      unfold pos at hpre
      omega
    · have hltb : t.msg_byte < buf.length := Nat.lt_of_not_le hfull
      have hm : t.msg_byte + 1 < 2 ^ 64 := by unfold pos at hlen; omega
      have hbt : bit_test t coef (correlation coef) = bit_test r coef (correlation coef) :=
        bit_test_congr t r _ _ h1 h2 h3
      have hnt := not_full_some t buf ht hltb
      have hnr := not_full_none r hr
      rw [pass_loop_read_cons, read_bits_cons]
      by_cases hc : bit_test r coef (correlation coef) < PADDING
      · rw [if_pos hc]
        obtain ⟨t1, t2, t3, t4, t5⟩ := bit_read_hit t coef hnt (hbt ▸ hc)
        obtain ⟨r1, r2, r3, r4, _⟩ := bit_read_hit r coef hnr hc
        rw [ht, hbt] at t5
        simp only [Option.map_some'] at t5
        have ea := advance_byte_bit t hbt8
        have eb := advance_byte_bit r hb
        have hpos1 : pos (bit_read t coef) = pos t + 1 := by
          rw [pos_congr (bit_read t coef) (advance t) t3 t4]
          exact advance_pos t hbt8 hm
        obtain ⟨out, ho1, ho2, ho3, ho4⟩ := ih (bit_read t coef) (bit_read r coef) _
          (pre ++ [bit_test r coef (correlation coef)])
          t5 (bit_read_msg_none r coef hr)
          (by rw [bit_read_total, bit_read_total, h1]) (by rw [t1, r1, h2])
          (by rw [t2, r2, h3])
          (by rw [t3, r3, ea.1, eb.1, hby, hbi])
          (by rw [t4, r4, ea.2, eb.2, hbi])
          (bit_read_bit_lt r coef hb)
          (by rw [hpos1]; omega)
          (by rw [hpos1]; simp [hpre])
          (set_byte_lt buf _ _ hlt)
          (by
            intro p hp
            rw [List.length_set] at hp
            rw [buf_bit_set buf _ _ _ hltb hbt8 hc p, hbits p hp]
            unfold pos at hpre
            by_cases hq : p < pre.length
            · rw [List.getD_append _ _ _ _ hq]
              have : ¬ (p = 8 * t.msg_byte + t.msg_bit ∧
                  bit_test r coef (correlation coef) = 1) := by omega
              simp [this]
            · have hq1 : pre.length ≤ p := Nat.le_of_not_lt hq
              rw [List.getD_append_right _ _ _ _ hq1]
              have e0 : pre.getD p 0 = 0 := by
                rw [List.getD_eq_getElem?_getD, List.getElem?_eq_none hq1]
                rfl
              rw [e0]
              by_cases hq2 : p = pre.length
              · have h0 : p - pre.length = 0 := by omega
                rw [h0]
                have hp' : p = 8 * t.msg_byte + t.msg_bit := by omega
                simp [hp']
              · have h0 : ¬ (p = 8 * t.msg_byte + t.msg_bit ∧
                    bit_test r coef (correlation coef) = 1) := by omega
                have h1 : [bit_test r coef (correlation coef)].getD (p - pre.length) 0 = 0 := by
                  rw [List.getD_eq_getElem?_getD, List.getElem?_eq_none (by simp; omega)]
                  rfl
                rw [h1]
                simp [h0])
        refine ⟨out, ho1, ?_, ho3, ?_⟩
        · rw [ho2, List.length_set]
        · intro p hp
          rw [ho4 p (by rw [List.length_set]; exact hp), List.append_assoc]
      · rw [if_neg hc]
        obtain ⟨t1, t2, t3, t4, t5⟩ := bit_read_miss t coef hnt (hbt ▸ hc)
        obtain ⟨r1, r2, r3, r4, _⟩ := bit_read_miss r coef hnr hc
        have hpos1 : pos (bit_read t coef) = pos t := pos_congr _ _ t3 t4
        obtain ⟨out, ho1, ho2, ho3, ho4⟩ := ih (bit_read t coef) (bit_read r coef) buf pre
          (t5.trans ht) (bit_read_msg_none r coef hr)
          (by rw [bit_read_total, bit_read_total, h1]) (by rw [t1, r1, h2])
          (by rw [t2, r2, h3]) (by rw [t3, r3, hby]) (by rw [t4, r4, hbi])
          (bit_read_bit_lt r coef hb)
          (by rw [hpos1]; omega) (by rw [hpos1]; exact hpre) hlt hbits
        exact ⟨out, ho1, ho2, ho3, by simpa using ho4⟩

theorem read_bits_lt (cells : List Nat) :
    ∀ (s : Conceal) (b : Nat), b ∈ read_bits s cells → b < 2 := by
  induction cells with
  | nil => intro s b hb; simp [read_bits] at hb
  | cons coef rest ih =>
    intro s b hb
    rw [read_bits_cons, List.mem_append] at hb
    rcases hb with hb | hb
    · split_ifs at hb with hc
      · rw [List.mem_singleton] at hb
        rw [hb]
        exact hc
      · simp at hb
    · exact ih _ b hb

theorem getD_lt_two (l : List Nat) (h : ∀ b ∈ l, b < 2) (p : Nat) : l.getD p 0 < 2 := by
  by_cases hp : p < l.length
  · rw [List.getD_eq_getElem _ _ hp]
    exact h _ (List.getElem_mem _)
  · rw [List.getD_eq_getElem?_getD, List.getElem?_eq_none (Nat.le_of_not_lt hp)]
    show 0 < 2
    omega

theorem shift_and_one (x i : Nat) : (x >>> i) &&& 1 = x / 2 ^ i % 2 := by
  rw [and_one_eq, Nat.shiftRight_eq_div_pow]

/-- The size reported by `current_size` is the number of bits read, divided
by eight and rounded down. -/
theorem current_size_bits (s : Conceal) (cells : List Nat) (hlen : cells.length < 2 ^ 64) :
    (current_size s cells).2 = (measure_bits s cells).length / 8 := by
  have h := measure_pos (fun _ => 0) (fun _ => false) cells
    (pass_init .READ { s with msg := none }) rfl (by show 0 < 8; omega)
    (by show 8 * 0 + 0 + cells.length < 2 ^ 64; omega)
  rw [current_size_eq]
  unfold measure_bits
  have h1 := h.1
  have h2 := h.2
  unfold pos at h1
  have h0 : 8 * (pass_init pass_t.READ { s with msg := none }).msg_byte +
      (pass_init pass_t.READ { s with msg := none }).msg_bit = 0 := rfl
  rw [h0] at h1
  omega

/-- The bytes returned by `read` hold the bits read, least significant bit
first. -/
theorem read_bytes_bits (nz : Bool) (s : Conceal) (cells : List Nat)
    (hlen : cells.length < 2 ^ 64) :
    ∃ r, read nz s cells = some r ∧ r.2.length = (measure_bits s cells).length / 8 ∧
      (∀ x ∈ r.2, x < 256) ∧
      ∀ p, p < 8 * ((measure_bits s cells).length / 8) →
        buf_bit r.2 p = decide ((measure_bits s cells).getD p 0 = 1) := by
  obtain ⟨r, hr1, _, hr3, hr4, hr5⟩ := read_ok nz s cells
  have hN := current_size_bits s cells hlen
  refine ⟨r, hr1, hr3.trans hN, ?_⟩
  rw [hN] at hr4
  unfold calloc_span at hr4
  split_ifs at hr4 with h0
  · have hz : (measure_bits s cells).length / 8 = 0 := h0.1
    have hl : r.2.length = 0 := by rw [hr3, hN, hz]
    have hnil : r.2 = [] := List.eq_nil_of_length_eq_zero hl
    rw [hz, hnil]
    refine ⟨by simp, ?_⟩
    intro p hp
    omega
  · obtain ⟨out, ho1, ho2, ho3, ho4⟩ := fill_bits (fun _ => 0) (fun _ => false) cells
      (pass_init .READ { s with
        msg := some (List.replicate ((measure_bits s cells).length / 8) 0) })
      (pass_init .READ { s with msg := none })
      (List.replicate ((measure_bits s cells).length / 8) 0) []
      rfl rfl rfl rfl rfl rfl rfl (by show 0 < 8; omega)
      (by show 8 * 0 + 0 + cells.length < 2 ^ 64; omega) rfl
      (by
        intro x hx
        rw [List.eq_of_mem_replicate hx]
        omega)
      (by
        intro p _
        unfold buf_bit
        have : (List.replicate ((measure_bits s cells).length / 8) 0).getD (p / 8) 0 = 0 := by
          by_cases hp : p / 8 < (List.replicate ((measure_bits s cells).length / 8) 0).length
          · rw [List.getD_eq_getElem _ _ hp]
            simp
          · rw [List.getD_eq_getElem?_getD, List.getElem?_eq_none (Nat.le_of_not_lt hp)]
            rfl
        rw [this]
        simp)
    rw [← hr4] at ho1
    rw [hr5, ho1]
    simp only [Option.getD_some]
    refine ⟨ho3, ?_⟩
    intro p hp
    rw [List.length_replicate] at ho4
    have := ho4 p hp
    rw [List.nil_append] at this
    exact this

/-- C10: with `b_0, b_1, ...` the bits (results 0 and 1) that `bit_test`
returns during the READ pass without destination, `current_size ()` is the
number of these bits divided by eight, rounded down, and bit `i` (bit 0 the
least significant) of byte `j` of `read ()` is `b_(8j+i)`. -/
theorem C10_extraction_bit_order (null_on_zero : Bool) (s : Conceal) (cells : List Nat)
    (hlen : cells.length < 2 ^ 64) :
    (∀ b ∈ measure_bits s cells, b = 0 ∨ b = 1) ∧
    (current_size s cells).2 = (measure_bits s cells).length / 8 ∧
    ∃ r, read null_on_zero s cells = some r ∧
      r.2.length = (measure_bits s cells).length / 8 ∧
      ∀ j i, j < (measure_bits s cells).length / 8 → i < 8 →
        (r.2.getD j 0 >>> i) &&& 1 = (measure_bits s cells).getD (8 * j + i) 0 := by
  have hb2 : ∀ b ∈ measure_bits s cells, b < 2 := read_bits_lt cells _
  refine ⟨fun b hb => by have := hb2 b hb; omega, current_size_bits s cells hlen, ?_⟩
  obtain ⟨r, h1, h2, _, h4⟩ := read_bytes_bits null_on_zero s cells hlen
  refine ⟨r, h1, h2, ?_⟩
  intro j i hj hi
  have h := h4 (8 * j + i) (by omega)
  unfold buf_bit at h
  have e1 : (8 * j + i) / 8 = j := by omega
  have e2 : (8 * j + i) % 8 = i := by omega
  rw [e1, e2, Nat.testBit_to_div_mod] at h
  rw [shift_and_one]
  have hlt := getD_lt_two _ hb2 (8 * j + i)
  have hmod : r.2.getD j 0 / 2 ^ i % 2 < 2 := Nat.mod_lt _ (by omega)
  have hiff := decide_eq_decide.mp h
  by_cases hone : (measure_bits s cells).getD (8 * j + i) 0 = 1
  · rw [hone]
    exact hiff.mpr hone
  · have h' : ¬ (r.2.getD j 0 / 2 ^ i % 2 = 1) := fun hx => hone (hiff.mp hx)
    omega

theorem C10_extraction_bit_order_witness :
    [3, 4, 3, 4, 3, 4, 3, 4, 3, 4, 3, 4, 3, 4, 3, 4, 3, 4].length < 2 ^ 64 ∧
    (current_size (with_total (histogram [3, 4, 3, 4, 3, 4, 3, 4, 3, 4, 3, 4, 3, 4, 3, 4, 3, 4]))
      [3, 4, 3, 4, 3, 4, 3, 4, 3, 4, 3, 4, 3, 4, 3, 4, 3, 4]).2 = 1 :=
  ⟨by decide,
    ((C10_extraction_bit_order false
      (with_total (histogram [3, 4, 3, 4, 3, 4, 3, 4, 3, 4, 3, 4, 3, 4, 3, 4, 3, 4]))
      [3, 4, 3, 4, 3, 4, 3, 4, 3, 4, 3, 4, 3, 4, 3, 4, 3, 4] (by decide)).2.1).trans
      (by decide)⟩

/-! ## The classifier `bit_test` -/

theorem bit_test_invalid_iff (s : Conceal) (coef corr : Nat) :
    bit_test s coef corr = INVALID ↔
      (coef = 0 ∨ corr = 0 ∨ s.total coef = 0 ∨ s.total corr = 0) := by
  unfold bit_test INVALID RESTORE PADDING
  simp only [and_one_eq]
  constructor
  · intro h
    by_contra hn
    rw [if_neg hn] at h
    split_ifs at h <;> omega
  · intro h
    rw [if_pos h]

theorem bit_test_restore_iff (s : Conceal) (coef corr : Nat) :
    bit_test s coef corr = RESTORE ↔
      (¬ (coef = 0 ∨ corr = 0 ∨ s.total coef = 0 ∨ s.total corr = 0) ∧
        s.total coef ≤ s.occur coef) := by
  unfold bit_test INVALID RESTORE PADDING
  simp only [and_one_eq]
  constructor
  · intro h
    split_ifs at h with h1 h2 h3 h4 <;> omega
  · intro h
    rw [if_neg h.1, if_pos h.2]

theorem bit_test_padding (s : Conceal) (coef corr : Nat)
    (h : bit_test s coef corr = PADDING) :
    ¬ (coef = 0 ∨ corr = 0 ∨ s.total coef = 0 ∨ s.total corr = 0) ∧
      s.occur coef < s.total coef := by
  unfold bit_test INVALID RESTORE PADDING at h
  simp only [and_one_eq] at h
  split_ifs at h with h1 h2 h3 h4 <;> omega

theorem bit_test_bit (s : Conceal) (coef corr : Nat) (h : bit_test s coef corr < PADDING) :
    ¬ (coef = 0 ∨ corr = 0 ∨ s.total coef = 0 ∨ s.total corr = 0) ∧
      s.occur coef < s.total coef ∧ s.occur corr < s.total corr ∧
      bit_test s coef corr = coef % 2 := by
  unfold bit_test INVALID RESTORE PADDING at h ⊢
  simp only [and_one_eq] at h ⊢
  split_ifs at h ⊢ with h1 h2 h3 h4 <;> omega

theorem bit_test_range (s : Conceal) (coef corr : Nat) :
    bit_test s coef corr < PADDING ∨ bit_test s coef corr = PADDING ∨
      bit_test s coef corr = RESTORE ∨ bit_test s coef corr = INVALID := by
  unfold bit_test INVALID RESTORE PADDING
  simp only [and_one_eq]
  split_ifs <;> omega

/-- The classifier on the swapped pair, when the pair is present and the
partner bucket is not full: it is the parity of the partner or PADDING. -/
theorem bit_test_swapped (s : Conceal) (coef corr : Nat)
    (h : ¬ (coef = 0 ∨ corr = 0 ∨ s.total coef = 0 ∨ s.total corr = 0))
    (hc : s.occur corr < s.total corr) (hd : s.occur coef < s.total coef) :
    bit_test s corr coef = corr % 2 ∨ bit_test s corr coef = PADDING := by
  unfold bit_test INVALID RESTORE PADDING
  simp only [and_one_eq]
  have h' : ¬ (corr = 0 ∨ coef = 0 ∨ s.total corr = 0 ∨ s.total coef = 0) := by
    intro hx
    apply h
    rcases hx with hx | hx | hx | hx
    · exact Or.inr (Or.inl hx)
    · exact Or.inl hx
    · exact Or.inr (Or.inr (Or.inr hx))
    · exact Or.inr (Or.inr (Or.inl hx))
  rw [if_neg h']
  split_ifs <;> omega

/-- The classifier on the swapped pair when the bucket of `coef` is full. -/
theorem bit_test_swapped_full (s : Conceal) (coef corr : Nat)
    (h : ¬ (coef = 0 ∨ corr = 0 ∨ s.total coef = 0 ∨ s.total corr = 0))
    (hd : s.total coef ≤ s.occur coef) :
    bit_test s corr coef = RESTORE ∨ bit_test s corr coef = PADDING := by
  unfold bit_test INVALID RESTORE PADDING
  have h' : ¬ (corr = 0 ∨ coef = 0 ∨ s.total corr = 0 ∨ s.total coef = 0) := by
    intro hx
    apply h
    rcases hx with hx | hx | hx | hx
    · exact Or.inr (Or.inl hx)
    · exact Or.inl hx
    · exact Or.inr (Or.inr (Or.inr hx))
    · exact Or.inr (Or.inr (Or.inl hx))
  rw [if_neg h']
  by_cases h2 : s.occur corr ≥ s.total corr
  · rw [if_pos h2]
    exact Or.inl rfl
  · rw [if_neg h2, if_pos hd]
    exact Or.inr rfl

/-! ## One step of the WRITE pass -/

theorem bit_write_invalid (rnd : Nat → Nat) (above : Nat → Bool) (w : Conceal) (c : Nat)
    (h : bit_test w c (correlation c) = INVALID) : bit_write rnd above w c = (w, c) := by
  unfold bit_write
  dsimp only
  rw [if_pos h]

theorem write_bit_total (rnd : Nat → Nat) (above : Nat → Bool) (w : Conceal) (c : Nat) :
    (bit_write rnd above w c).1.total = w.total ∧ (bit_write rnd above w c).1.msg = w.msg := by
  unfold bit_write
  dsimp only
  split_ifs <;> exact ⟨rfl, rfl⟩

/-- What one call of `bit_write` does to a cell that `bit_test` does not
class INVALID, stated with the class `b` that `bit_test` gives, in the state
before the call, to the value left in the cell. -/
theorem bit_write_valid (rnd : Nat → Nat) (above : Nat → Bool) (w : Conceal) (c : Nat)
    (hc : c < 65536) (h : bit_test w c (correlation c) ≠ INVALID) :
    ((bit_write rnd above w c).2 = c ∨ (bit_write rnd above w c).2 = correlation c) ∧
    bit_test w (bit_write rnd above w c).2 (correlation (bit_write rnd above w c).2)
      ≠ INVALID ∧
    (bit_write rnd above w c).1.occur = incr w.occur (bit_write rnd above w c).2 ∧
    (bit_write rnd above w c).1.count =
      (if bit_test w (bit_write rnd above w c).2 (correlation (bit_write rnd above w c).2)
          < PADDING
        then incr w.count (bit_write rnd above w c).2 else w.count) ∧
    (w.total c ≤ w.occur c → (bit_write rnd above w c).2 = correlation c) ∧
    (w.occur c < w.total c →
      w.occur (bit_write rnd above w c).2 < w.total (bit_write rnd above w c).2) ∧
    (if bit_test w (bit_write rnd above w c).2 (correlation (bit_write rnd above w c).2)
          < PADDING ∧ w.msg_byte < msg_size w
      then (bit_write rnd above w c).1.msg_byte = (advance w).msg_byte ∧
        (bit_write rnd above w c).1.msg_bit = (advance w).msg_bit ∧
        bit_test w (bit_write rnd above w c).2 (correlation (bit_write rnd above w c).2) =
          (msg_at w w.msg_byte >>> w.msg_bit) &&& 1
      else (bit_write rnd above w c).1.msg_byte = w.msg_byte ∧
        (bit_write rnd above w c).1.msg_bit = w.msg_bit) := by
  have hn : ¬ (c = 0 ∨ correlation c = 0 ∨ w.total c = 0 ∨ w.total (correlation c) = 0) :=
    fun hx => h ((bit_test_invalid_iff w c _).mpr hx)
  have hd0 : correlation c ≠ 0 := fun hx => hn (Or.inr (Or.inl hx))
  have hinv : correlation (correlation c) = c := correlation_invol c hc hd0
  have hpar : correlation c % 2 ≠ c % 2 := correlation_parity c hc hd0
  have hP : (PADDING : Nat) = 2 := rfl
  have hR : (RESTORE : Nat) = 3 := rfl
  have hI : (INVALID : Nat) = 4 := rfl
  rcases bit_test_range w c (correlation c) with hb | hb | hb | hb
  · -- a usable carrier
    obtain ⟨_, hoc, hod, hbv⟩ := bit_test_bit w c _ hb
    have hsw := bit_test_swapped w c (correlation c) hn hod hoc
    have hneI : ¬ bit_test w c (correlation c) = INVALID := h
    have hneR : ¬ bit_test w c (correlation c) = RESTORE := by omega
    have hneP : ¬ bit_test w c (correlation c) = PADDING := by omega
    by_cases hm : w.msg_byte < msg_size w
    · have hbs : (msg_at w w.msg_byte >>> w.msg_bit) &&& 1 < 2 := by
        rw [and_one_eq]; omega
      by_cases he : bit_test w c (correlation c) = (msg_at w w.msg_byte >>> w.msg_bit) &&& 1
      · have e : bit_write rnd above w c =
            ({ advance { w with count := incr w.count c } with occur := incr w.occur c }, c) := by
          unfold bit_write
          dsimp only
          rw [if_neg hneI, if_neg hneR, if_neg hneP, if_pos hm, if_pos he]
          rfl
        rw [e]
        dsimp only
        rw [if_pos hb, if_pos ⟨hb, hm⟩]
        exact ⟨Or.inl rfl, h, rfl, rfl, fun hx => by omega, fun _ => hoc, rfl, rfl, he⟩
      · by_cases hs : bit_test w (correlation c) c = (msg_at w w.msg_byte >>> w.msg_bit) &&& 1
        · have e : bit_write rnd above w c =
              ({ advance { w with count := incr w.count (correlation c) } with
                  occur := incr w.occur (correlation c) }, correlation c) := by
            unfold bit_write
            dsimp only
            rw [if_neg hneI, if_neg hneR, if_neg hneP, if_pos hm, if_neg he, if_pos hs]
            rfl
          rw [e]
          dsimp only
          rw [hinv]
          have hlt : bit_test w (correlation c) c < PADDING := by rw [hs, hP]; exact hbs
          rw [if_pos hlt, if_pos ⟨hlt, hm⟩]
          exact ⟨Or.inr rfl, by omega, rfl, rfl, fun _ => rfl, fun _ => hod, rfl, rfl, hs⟩
        · have e : bit_write rnd above w c =
              ({ w with occur := incr w.occur (correlation c) }, correlation c) := by
            unfold bit_write
            dsimp only
            rw [if_neg hneI, if_neg hneR, if_neg hneP, if_pos hm, if_neg he, if_neg hs]
          rw [e]
          dsimp only
          rw [hinv]
          have hge : ¬ bit_test w (correlation c) c < PADDING := by
            rw [and_one_eq] at he hs hbs
            omega
          rw [if_neg hge, if_neg (fun hx => hge hx.1)]
          exact ⟨Or.inr rfl, by omega, rfl, rfl, fun _ => rfl, fun _ => hod, rfl, rfl⟩
    · have hsw0 : bit_test { w with rnd_calls := w.rnd_calls + 1 } (correlation c) c =
          bit_test w (correlation c) c := bit_test_congr _ _ _ _ rfl rfl rfl
      have hbs : (if above (rnd w.rnd_calls) = true then 1 else 0 : Nat) < 2 := by
        split_ifs <;> omega
      by_cases he : bit_test w c (correlation c) =
          (if above (rnd w.rnd_calls) = true then 1 else 0 : Nat)
      · have e : bit_write rnd above w c =
            ({ w with rnd_calls := w.rnd_calls + 1, count := incr w.count c,
                      occur := incr w.occur c }, c) := by
          unfold bit_write
          dsimp only
          rw [if_neg hneI, if_neg hneR, if_neg hneP, if_neg hm, if_pos he]
        rw [e]
        dsimp only
        rw [if_pos hb, if_neg (fun hx => hm hx.2)]
        exact ⟨Or.inl rfl, h, rfl, rfl, fun hx => by omega, fun _ => hoc, rfl, rfl⟩
      · by_cases hs : bit_test w (correlation c) c =
            (if above (rnd w.rnd_calls) = true then 1 else 0 : Nat)
        · have e : bit_write rnd above w c =
              ({ w with rnd_calls := w.rnd_calls + 1, count := incr w.count (correlation c),
                        occur := incr w.occur (correlation c) }, correlation c) := by
            unfold bit_write
            dsimp only
            rw [if_neg hneI, if_neg hneR, if_neg hneP, if_neg hm, if_neg he, hsw0, if_pos hs]
          rw [e]
          dsimp only
          rw [hinv]
          have hlt : bit_test w (correlation c) c < PADDING := by rw [hs, hP]; exact hbs
          rw [if_pos hlt, if_neg (fun hx => hm hx.2)]
          exact ⟨Or.inr rfl, by omega, rfl, rfl, fun _ => rfl, fun _ => hod, rfl, rfl⟩
        · have e : bit_write rnd above w c =
              ({ w with rnd_calls := w.rnd_calls + 1,
                        occur := incr w.occur (correlation c) }, correlation c) := by
            unfold bit_write
            dsimp only
            rw [if_neg hneI, if_neg hneR, if_neg hneP, if_neg hm, if_neg he, hsw0, if_neg hs]
          rw [e]
          dsimp only
          rw [hinv]
          have hge : ¬ bit_test w (correlation c) c < PADDING := by
            omega
          rw [if_neg hge, if_neg (fun hx => hge hx.1)]
          exact ⟨Or.inr rfl, by omega, rfl, rfl, fun _ => rfl, fun _ => hod, rfl, rfl⟩
  · -- PADDING
    obtain ⟨_, hoc⟩ := bit_test_padding w c _ hb
    have e : bit_write rnd above w c = ({ w with occur := incr w.occur c }, c) := by
      unfold bit_write
      dsimp only
      rw [if_neg h, if_neg (by omega), if_pos hb]
    rw [e]
    dsimp only
    have hge : ¬ bit_test w c (correlation c) < PADDING := by omega
    rw [if_neg hge, if_neg (fun hx => hge hx.1)]
    exact ⟨Or.inl rfl, h, rfl, rfl, fun hx => by omega, fun _ => hoc, rfl, rfl⟩
  · -- RESTORE
    have hfull := ((bit_test_restore_iff w c _).mp hb).2
    have hsw := bit_test_swapped_full w c (correlation c) hn hfull
    have e : bit_write rnd above w c =
        ({ w with occur := incr w.occur (correlation c) }, correlation c) := by
      unfold bit_write
      dsimp only
      rw [if_neg h, if_pos hb]
    rw [e]
    dsimp only
    rw [hinv]
    have hge : ¬ bit_test w (correlation c) c < PADDING := by omega
    rw [if_neg hge, if_neg (fun hx => hge hx.1)]
    exact ⟨Or.inr rfl, by omega, rfl, rfl, fun _ => rfl, fun hx => by omega, rfl, rfl⟩
  · exact absurd hb h

/-! ## The READ pass over the written cells repeats the WRITE pass -/

theorem incr_apply (f : Nat → Nat) (v u : Nat) :
    incr f v u = if u = v then u32 (f v + 1) else f u := by
  unfold incr
  by_cases h : u = v
  · rw [if_pos h, h, Function.update_same]
  · rw [if_neg h, Function.update_noteq h]

theorem live_correlation (total : Nat → Nat) (u : Nat) (hu : u < 65536) (h : live total u) :
    live total (correlation u) := by
  unfold live at h ⊢
  have hd0 : correlation u ≠ 0 := fun hx => h (Or.inr (Or.inl hx))
  rw [correlation_invol u hu hd0]
  intro hx
  apply h
  rcases hx with hx | hx | hx | hx
  · exact Or.inr (Or.inl hx)
  · exact Or.inl hx
  · exact Or.inr (Or.inr (Or.inr hx))
  · exact Or.inr (Or.inr (Or.inl hx))

theorem bit_test_invalid_of_not_live (s : Conceal) (u : Nat) (h : ¬ live s.total u) :
    bit_test s u (correlation u) = INVALID :=
  (bit_test_invalid_iff s u _).mpr (by unfold live at h; exact not_not.mp h)

theorem live_of_bit_test (s : Conceal) (u : Nat) (h : bit_test s u (correlation u) ≠ INVALID) :
    live s.total u := fun hx => h ((bit_test_invalid_iff s u _).mpr hx)

/-- Two states with the same `total` and `count` tables whose `occur` tables
agree on the live values class every cell alike. -/
theorem bit_test_sim (w r : Conceal) (ht : r.total = w.total) (hcnt : r.count = w.count)
    (hocc : ∀ u, live w.total u → r.occur u = w.occur u) (x : Nat) (hx : x < 65536) :
    bit_test r x (correlation x) = bit_test w x (correlation x) := by
  by_cases hl : live w.total x
  · have h1 := hocc x hl
    have h2 := hocc _ (live_correlation _ x hx hl)
    unfold bit_test
    rw [ht, hcnt, h1, h2]
  · rw [bit_test_invalid_of_not_live w x hl,
      bit_test_invalid_of_not_live r x (by rw [ht]; exact hl)]

theorem bit_write_cell_lt (rnd : Nat → Nat) (above : Nat → Bool) (w : Conceal) (c : Nat)
    (hc : c < 65536) : (bit_write rnd above w c).2 < 65536 := by
  by_cases h : bit_test w c (correlation c) = INVALID
  · rw [bit_write_invalid rnd above w c h]
    exact hc
  · rcases (bit_write_valid rnd above w c hc h).1 with e | e
    · rw [e]; exact hc
    · rw [e]; exact correlation_lt c hc

/-- One step of the simulation: `bit_read` applied to the cell that
`bit_write` has left keeps the tables of reader and writer in agreement. -/
theorem sim_step (rnd : Nat → Nat) (above : Nat → Bool) (w r : Conceal) (c : Nat)
    (hc : c < 65536) (hr : r.msg = none) (ht : r.total = w.total) (hcnt : r.count = w.count)
    (hocc : ∀ u, live w.total u → r.occur u = w.occur u) :
    (bit_read r (bit_write rnd above w c).2).total = (bit_write rnd above w c).1.total ∧
    (bit_read r (bit_write rnd above w c).2).count = (bit_write rnd above w c).1.count ∧
    ∀ u, live (bit_write rnd above w c).1.total u →
      (bit_read r (bit_write rnd above w c).2).occur u = (bit_write rnd above w c).1.occur u := by
  have hv := bit_write_cell_lt rnd above w c hc
  have hbt := bit_test_sim w r ht hcnt hocc _ hv
  have hnr := not_full_none r hr
  have htot := (write_bit_total rnd above w c).1
  rw [bit_read_total, htot]
  refine ⟨ht, ?_⟩
  by_cases h : bit_test w c (correlation c) = INVALID
  · have e := bit_write_invalid rnd above w c h
    rw [e] at hbt ⊢
    dsimp only at hbt ⊢
    have hmiss : ¬ bit_test r c (correlation c) < PADDING := by
      rw [hbt, h]
      decide
    obtain ⟨m1, m2, _⟩ := bit_read_miss r c hnr hmiss
    rw [m1, m2]
    refine ⟨hcnt, ?_⟩
    intro u hu
    rw [incr_apply, if_neg, hocc u hu]
    intro huc
    rw [huc] at hu
    exact hu ((bit_test_invalid_iff w c _).mp h)
  · obtain ⟨_, hbI, hocc1, hcnt1, _⟩ := bit_write_valid rnd above w c hc h
    have hlv := live_of_bit_test w _ hbI
    rw [hocc1, hcnt1]
    by_cases hb : bit_test w (bit_write rnd above w c).2
        (correlation (bit_write rnd above w c).2) < PADDING
    · obtain ⟨m1, m2, _⟩ := bit_read_hit r _ hnr (hbt ▸ hb)
      rw [m1, m2, if_pos hb, hcnt]
      refine ⟨rfl, ?_⟩
      intro u hu
      rw [incr_apply, incr_apply]
      split_ifs with huv
      · rw [hocc _ hlv]
      · exact hocc u hu
    · obtain ⟨m1, m2, _⟩ := bit_read_miss r _ hnr (hbt ▸ hb)
      rw [m1, m2, if_neg hb]
      refine ⟨hcnt, ?_⟩
      intro u hu
      rw [incr_apply, incr_apply]
      split_ifs with huv
      · rw [hocc _ hlv]
      · exact hocc u hu

theorem pass_loop_write_cons (rnd : Nat → Nat) (above : Nat → Bool) (s : Conceal)
    (coef : Nat) (rest : List Nat) :
    pass_loop rnd above .WRITE s (coef :: rest) =
      ((pass_loop rnd above .WRITE (bit_write rnd above s coef).1 rest).1,
        (bit_write rnd above s coef).2 ::
          (pass_loop rnd above .WRITE (bit_write rnd above s coef).1 rest).2) := rfl

theorem write_bits_cons (rnd : Nat → Nat) (above : Nat → Bool) (s : Conceal)
    (coef : Nat) (rest : List Nat) :
    write_bits rnd above s (coef :: rest) =
      (if bit_test s (bit_write rnd above s coef).2
            (correlation (bit_write rnd above s coef).2) < PADDING
        then [bit_test s (bit_write rnd above s coef).2
            (correlation (bit_write rnd above s coef).2)] else []) ++
      write_bits rnd above (bit_write rnd above s coef).1 rest := rfl

/-- The bits that a READ pass without destination reads from the cells left
by a WRITE pass are the bits that the WRITE pass carried. -/
theorem read_bits_written (rnd : Nat → Nat) (above : Nat → Bool) (cells : List Nat) :
    ∀ (w r : Conceal), (∀ c ∈ cells, c < 65536) → r.msg = none → r.total = w.total →
      r.count = w.count → (∀ u, live w.total u → r.occur u = w.occur u) →
      read_bits r (pass_loop rnd above .WRITE w cells).2 = write_bits rnd above w cells := by
  induction cells with
  | nil => intro w r _ _ _ _ _; rfl
  | cons c rest ih =>
    intro w r hcells hr ht hcnt hocc
    have hc : c < 65536 := hcells c (List.mem_cons_self _ _)
    have hv := bit_write_cell_lt rnd above w c hc
    have hbt := bit_test_sim w r ht hcnt hocc _ hv
    obtain ⟨s1, s2, s3⟩ := sim_step rnd above w r c hc hr ht hcnt hocc
    rw [pass_loop_write_cons, write_bits_cons]
    dsimp only
    rw [read_bits_cons, hbt]
    congr 1
    exact ih _ _ (fun x hx => hcells x (List.mem_cons_of_mem _ hx))
      (bit_read_msg_none r _ hr) s1 s2 s3

/-! ## The bits carried by the WRITE pass and the payload -/

theorem msg_size_congr (s t : Conceal) (h : s.msg = t.msg) : msg_size s = msg_size t := by
  unfold msg_size
  rw [h]

/-- The cursor after one call of `bit_write`. -/
theorem bit_write_cursor (rnd : Nat → Nat) (above : Nat → Bool) (w : Conceal) (c : Nat)
    (hc : c < 65536) :
    if bit_test w (bit_write rnd above w c).2 (correlation (bit_write rnd above w c).2)
          < PADDING ∧ w.msg_byte < msg_size w
      then (bit_write rnd above w c).1.msg_byte = (advance w).msg_byte ∧
        (bit_write rnd above w c).1.msg_bit = (advance w).msg_bit ∧
        bit_test w (bit_write rnd above w c).2 (correlation (bit_write rnd above w c).2) =
          (msg_at w w.msg_byte >>> w.msg_bit) &&& 1
      else (bit_write rnd above w c).1.msg_byte = w.msg_byte ∧
        (bit_write rnd above w c).1.msg_bit = w.msg_bit := by
  by_cases h : bit_test w c (correlation c) = INVALID
  · rw [bit_write_invalid rnd above w c h]
    dsimp only
    rw [if_neg]
    · exact ⟨rfl, rfl⟩
    · intro hx
      rw [h] at hx
      exact absurd hx.1 (by decide)
  · exact (bit_write_valid rnd above w c hc h).2.2.2.2.2.2

/-- Once the payload is used up the WRITE pass leaves the cursor alone. -/
theorem write_cursor_frozen (rnd : Nat → Nat) (above : Nat → Bool) (cells : List Nat) :
    ∀ w : Conceal, (∀ c ∈ cells, c < 65536) → ¬ w.msg_byte < msg_size w →
      (pass_loop rnd above .WRITE w cells).1.msg_byte = w.msg_byte ∧
        (pass_loop rnd above .WRITE w cells).1.msg_bit = w.msg_bit := by
  induction cells with
  | nil => intro w _ _; exact ⟨rfl, rfl⟩
  | cons c rest ih =>
    intro w hcells hm
    have hc : c < 65536 := hcells c (List.mem_cons_self _ _)
    have hcur := bit_write_cursor rnd above w c hc
    rw [if_neg (fun hx => hm hx.2)] at hcur
    have hsz := msg_size_congr _ _ (write_bit_total rnd above w c).2
    rw [pass_loop_write_cons]
    dsimp only
    have := ih (bit_write rnd above w c).1 (fun x hx => hcells x (List.mem_cons_of_mem _ hx))
      (by rw [hsz, hcur.1]; exact hm)
    rw [this.1, this.2]
    exact hcur

theorem msg_at_payload (w : Conceal) (P : List Nat) (h : w.msg = some P) (hb : w.msg_bit < 8) :
    (msg_at w w.msg_byte >>> w.msg_bit) &&& 1 = payload_bit P (pos w) := by
  unfold msg_at payload_bit pos
  rw [h]
  have e1 : (8 * w.msg_byte + w.msg_bit) / 8 = w.msg_byte := by omega
  have e2 : (8 * w.msg_byte + w.msg_bit) % 8 = w.msg_bit := by omega
  rw [e1, e2]

/-- While the payload lasts, the bits carried by the WRITE pass are the bits
of the payload from the cursor on. -/
theorem write_bits_payload (rnd : Nat → Nat) (above : Nat → Bool) (P : List Nat)
    (cells : List Nat) :
    ∀ w : Conceal, (∀ c ∈ cells, c < 65536) → w.msg = some P → w.msg_bit < 8 →
      w.msg_byte ≤ P.length → pos w + cells.length < 2 ^ 64 →
      (pass_loop rnd above .WRITE w cells).1.msg_bit < 8 ∧
      (pass_loop rnd above .WRITE w cells).1.msg_byte ≤ P.length ∧
      pos w ≤ pos (pass_loop rnd above .WRITE w cells).1 ∧
      pos (pass_loop rnd above .WRITE w cells).1 - pos w ≤
        (write_bits rnd above w cells).length ∧
      ∀ j, j < pos (pass_loop rnd above .WRITE w cells).1 - pos w →
        (write_bits rnd above w cells).getD j 0 = payload_bit P (pos w + j) := by
  induction cells with
  | nil =>
    intro w _ _ hb hle _
    refine ⟨hb, hle, le_refl _, ?_, ?_⟩
    · show pos w - pos w ≤ _
      omega
    · intro j hj
      have : pos (pass_loop rnd above .WRITE w []).1 = pos w := rfl
      omega
  | cons c rest ih =>
    intro w hcells hP hb hle hlen
    simp only [List.length_cons] at hlen
    have hc : c < 65536 := hcells c (List.mem_cons_self _ _)
    have hrest : ∀ x ∈ rest, x < 65536 := fun x hx => hcells x (List.mem_cons_of_mem _ hx)
    have hcur := bit_write_cursor rnd above w c hc
    have hmsg := (write_bit_total rnd above w c).2
    have hsz : msg_size w = P.length := by unfold msg_size; rw [hP]
    have hm64 : w.msg_byte + 1 < 2 ^ 64 := by unfold pos at hlen; omega
    rw [pass_loop_write_cons, write_bits_cons]
    dsimp only
    by_cases hb2 : bit_test w (bit_write rnd above w c).2
        (correlation (bit_write rnd above w c).2) < PADDING
    · rw [if_pos hb2]
      by_cases hm : w.msg_byte < msg_size w
      · rw [if_pos ⟨hb2, hm⟩] at hcur
        obtain ⟨c1, c2, c3⟩ := hcur
        have hpos1 : pos (bit_write rnd above w c).1 = pos w + 1 := by
          rw [pos_congr _ (advance w) c1 c2]
          exact advance_pos w hb hm64
        have hle1 : (bit_write rnd above w c).1.msg_byte ≤ P.length := by
          rw [c1]
          have := advance_byte_le w hb
          omega
        obtain ⟨i1, i2, i3, i4, i5⟩ := ih (bit_write rnd above w c).1 hrest
          (hmsg.trans hP) (by rw [c2]; exact advance_bit_lt w hb) hle1
          (by rw [hpos1]; omega)
        rw [hpos1] at i3 i4 i5
        refine ⟨i1, i2, by omega, ?_, ?_⟩
        · simp only [List.singleton_append, List.length_cons]
          omega
        · intro j hj
          cases j with
          | zero =>
            simp only [List.singleton_append, List.getD_cons_zero, Nat.add_zero]
            rw [c3]
            exact msg_at_payload w P hP hb
          | succ k =>
            simp only [List.singleton_append, List.getD_cons_succ]
            rw [i5 k (by omega)]
            congr 1
            omega
      · rw [if_neg (fun hx => hm hx.2)] at hcur
        have hfr := write_cursor_frozen rnd above rest (bit_write rnd above w c).1 hrest
          (by rw [msg_size_congr _ _ hmsg, hcur.1]; exact hm)
        have hposf : pos (pass_loop rnd above .WRITE (bit_write rnd above w c).1 rest).1 =
            pos w :=
          pos_congr _ _ (hfr.1.trans hcur.1) (hfr.2.trans hcur.2)
        rw [hposf]
        refine ⟨by rw [hfr.2, hcur.2]; exact hb, by rw [hfr.1, hcur.1]; exact hle,
          le_refl _, by omega, ?_⟩
        intro j hj
        omega
    · rw [if_neg hb2]
      rw [if_neg (fun hx => hb2 hx.1)] at hcur
      have hpos1 : pos (bit_write rnd above w c).1 = pos w := pos_congr _ _ hcur.1 hcur.2
      obtain ⟨i1, i2, i3, i4, i5⟩ := ih (bit_write rnd above w c).1 hrest
        (hmsg.trans hP) (by rw [hcur.2]; exact hb) (by rw [hcur.1]; exact hle)
        (by rw [hpos1]; omega)
      rw [hpos1] at i3 i4 i5
      simp only [List.nil_append]
      exact ⟨i1, i2, i3, i4, i5⟩

theorem pass_loop_write_total (rnd : Nat → Nat) (above : Nat → Bool) (cells : List Nat) :
    ∀ w : Conceal, (pass_loop rnd above .WRITE w cells).1.total = w.total ∧
      (pass_loop rnd above .WRITE w cells).1.msg = w.msg ∧
      (pass_loop rnd above .WRITE w cells).2.length = cells.length := by
  induction cells with
  | nil => intro w; exact ⟨rfl, rfl, rfl⟩
  | cons c rest ih =>
    intro w
    rw [pass_loop_write_cons]
    dsimp only
    obtain ⟨h1, h2, h3⟩ := ih (bit_write rnd above w c).1
    rw [h1, h2, (write_bit_total rnd above w c).1, (write_bit_total rnd above w c).2]
    exact ⟨rfl, rfl, by simp [h3]⟩

theorem pass_loop_write_cells_lt (rnd : Nat → Nat) (above : Nat → Bool) (cells : List Nat) :
    ∀ w : Conceal, (∀ c ∈ cells, c < 65536) →
      ∀ v ∈ (pass_loop rnd above .WRITE w cells).2, v < 65536 := by
  induction cells with
  | nil => intro w _ v hv; simp [pass_loop] at hv
  | cons c rest ih =>
    intro w hcells v hv
    rw [pass_loop_write_cons] at hv
    dsimp only at hv
    rcases List.mem_cons.mp hv with e | e
    · rw [e]
      exact bit_write_cell_lt rnd above w c (hcells c (List.mem_cons_self _ _))
    · exact ih _ (fun x hx => hcells x (List.mem_cons_of_mem _ hx)) v e

/-! ## Round trip -/

theorem byte_eq_of_bits (x y : Nat) (hx : x < 256) (hy : y < 256)
    (h : ∀ i, i < 8 → x.testBit i = y.testBit i) : x = y := by
  apply Nat.eq_of_testBit_eq
  intro i
  by_cases hi : i < 8
  · exact h i hi
  · have h256 : 256 ≤ 2 ^ i := by
      have : 2 ^ 8 ≤ 2 ^ i := Nat.pow_le_pow_right (by omega) (by omega)
      simpa using this
    rw [Nat.testBit_lt_two_pow (by omega), Nat.testBit_lt_two_pow (by omega)]

theorem write_some (rnd : Nat → Nat) (above : Nat → Bool) (s : Conceal) (P cells : List Nat)
    (w : Conceal × List Nat) (hw : write rnd above s P cells = some w) :
    w = pass_write rnd above s P cells ∧ w.1.msg_byte = P.length := by
  unfold write at hw
  dsimp only at hw
  split_ifs at hw with h
  have e : pass_write rnd above s P cells = w := Option.some.inj hw
  have hmsg := (pass_loop_write_total rnd above cells
    (pass_init .WRITE { s with msg := some P })).2.1
  have hsz : msg_size (pass_write rnd above s P cells).1 = P.length := by
    unfold pass_write pass msg_size
    rw [hmsg]
    rfl
  refine ⟨e.symm, ?_⟩
  rw [← e]
  rw [hsz] at h
  exact not_not.mp h

/-- The bits that `current_size` and `read` find in the cells left by the
WRITE pass are the bits which that pass carried. -/
theorem measure_bits_written (rnd : Nat → Nat) (above : Nat → Bool) (s : Conceal)
    (P cells : List Nat) (hcells : ∀ c ∈ cells, c < 65536) :
    measure_bits (pass_write rnd above s P cells).1 (pass_write rnd above s P cells).2 =
      write_bits rnd above (pass_init .WRITE { s with msg := some P }) cells := by
  unfold measure_bits pass_write pass
  have htot := (pass_loop_write_total rnd above cells
    (pass_init .WRITE { s with msg := some P })).1
  exact read_bits_written rnd above cells _ _ hcells rfl htot rfl (fun _ _ => rfl)

/-- When the WRITE pass ends with `msg_byte = |P|`, the first `8 |P|` bits it
carried are the bits of the payload. -/
theorem written_bits_payload (rnd : Nat → Nat) (above : Nat → Bool) (s : Conceal)
    (P cells : List Nat) (hcells : ∀ c ∈ cells, c < 65536) (hlen : cells.length < 2 ^ 64)
    (hfin : (pass_write rnd above s P cells).1.msg_byte = P.length) :
    8 * P.length ≤
        (write_bits rnd above (pass_init .WRITE { s with msg := some P }) cells).length ∧
      ∀ j, j < 8 * P.length →
        (write_bits rnd above (pass_init .WRITE { s with msg := some P }) cells).getD j 0 =
          payload_bit P j := by
  obtain ⟨_, _, _, h4, h5⟩ := write_bits_payload rnd above P cells
    (pass_init .WRITE { s with msg := some P }) hcells rfl (by show 0 < 8; omega)
    (Nat.zero_le _) (by show 8 * 0 + 0 + cells.length < 2 ^ 64; omega)
  have hp0 : pos (pass_init .WRITE { s with msg := some P }) = 0 := rfl
  have hfin' : (pass_loop rnd above .WRITE (pass_init .WRITE { s with msg := some P })
      cells).1.msg_byte = P.length := hfin
  have hpos : 8 * P.length ≤ pos (pass_loop rnd above .WRITE
      (pass_init .WRITE { s with msg := some P }) cells).1 := by
    unfold pos
    rw [hfin']
    omega
  rw [hp0] at h4 h5
  refine ⟨by omega, ?_⟩
  intro j hj
  have := h5 j (by omega)
  rw [Nat.zero_add] at this
  exact this

/-- C1: when the WRITE pass for the payload `P` ends with `msg_byte = |P|`
(`write` does not throw), `read ()` on the cells it leaves returns at least
`|P|` bytes of which the first `|P|` are `P`; this for every table `total`,
every payload and every sequence of random draws. -/
theorem C1_round_trip (rnd : Nat → Nat) (above : Nat → Bool) (null_on_zero : Bool)
    (s : Conceal) (P cells : List Nat) (hcells : ∀ c ∈ cells, c < 65536)
    (hP : ∀ b ∈ P, b < 256) (hlen : cells.length < 2 ^ 64)
    (w : Conceal × List Nat) (hw : write rnd above s P cells = some w) :
    ∃ r, read null_on_zero w.1 w.2 = some r ∧ P.length ≤ r.2.length ∧
      r.2.take P.length = P := by
  obtain ⟨hw1, hw2⟩ := write_some rnd above s P cells w hw
  subst hw1
  have hbits := measure_bits_written rnd above s P cells hcells
  obtain ⟨k1, k2⟩ := written_bits_payload rnd above s P cells hcells hlen hw2
  have hlen2 : (pass_write rnd above s P cells).2.length < 2 ^ 64 := by
    unfold pass_write pass
    rw [(pass_loop_write_total rnd above cells _).2.2]
    exact hlen
  obtain ⟨r, r1, r2, r3, r4⟩ := read_bytes_bits null_on_zero
    (pass_write rnd above s P cells).1 (pass_write rnd above s P cells).2 hlen2
  rw [hbits] at r2 r4
  have hPr : P.length ≤ r.2.length := by omega
  refine ⟨r, r1, hPr, ?_⟩
  apply List.ext_getElem
  · rw [List.length_take]
    omega
  · intro j h1 h2
    rw [List.getElem_take]
    have hjr : j < r.2.length := by omega
    apply byte_eq_of_bits _ _ (r3 _ (List.getElem_mem _)) (hP _ (List.getElem_mem _))
    intro i hi
    have hb := r4 (8 * j + i) (by omega)
    rw [k2 (8 * j + i) (by omega)] at hb
    unfold buf_bit payload_bit at hb
    have e1 : (8 * j + i) / 8 = j := by omega
    have e2 : (8 * j + i) % 8 = i := by omega
    rw [e1, e2, shift_and_one, List.getD_eq_getElem _ _ hjr, List.getD_eq_getElem _ _ h2] at hb
    rw [hb, Nat.testBit_to_div_mod]

set_option maxRecDepth 100000 in
theorem C1_round_trip_witness :
    ((∀ c ∈ [3, 4, 3, 4, 3, 4, 3, 4, 3, 4, 3, 4, 3, 4, 3, 4, 3, 4], c < 65536) ∧
      (∀ b ∈ [165], b < 256) ∧
      [3, 4, 3, 4, 3, 4, 3, 4, 3, 4, 3, 4, 3, 4, 3, 4, 3, 4].length < 2 ^ 64 ∧
      (write (fun _ => 0) (fun _ => false)
        (with_total (histogram [3, 4, 3, 4, 3, 4, 3, 4, 3, 4, 3, 4, 3, 4, 3, 4, 3, 4])) [165]
        [3, 4, 3, 4, 3, 4, 3, 4, 3, 4, 3, 4, 3, 4, 3, 4, 3, 4]).isSome = true) ∧
    ∃ r, read false
        (pass_write (fun _ => 0) (fun _ => false)
          (with_total (histogram [3, 4, 3, 4, 3, 4, 3, 4, 3, 4, 3, 4, 3, 4, 3, 4, 3, 4])) [165]
          [3, 4, 3, 4, 3, 4, 3, 4, 3, 4, 3, 4, 3, 4, 3, 4, 3, 4]).1
        (pass_write (fun _ => 0) (fun _ => false)
          (with_total (histogram [3, 4, 3, 4, 3, 4, 3, 4, 3, 4, 3, 4, 3, 4, 3, 4, 3, 4])) [165]
          [3, 4, 3, 4, 3, 4, 3, 4, 3, 4, 3, 4, 3, 4, 3, 4, 3, 4]).2 = some r ∧
      [165].length ≤ r.2.length ∧ r.2.take [165].length = [165] :=
  ⟨⟨by decide, by decide, by decide, by decide⟩,
    C1_round_trip (fun _ => 0) (fun _ => false) false
      (with_total (histogram [3, 4, 3, 4, 3, 4, 3, 4, 3, 4, 3, 4, 3, 4, 3, 4, 3, 4])) [165]
      [3, 4, 3, 4, 3, 4, 3, 4, 3, 4, 3, 4, 3, 4, 3, 4, 3, 4] (by decide) (by decide)
      (by decide) _ (by
        unfold write
        dsimp only
        rw [if_neg (by decide)])⟩

/-! ## Sums of tables -/

theorem table_sum_incr (f : Nat → Nat) (v : Nat) (hv : v < 65536) (hf : f v + 1 < 2 ^ 32) :
    table_sum (incr f v) = table_sum f + 1 := by
  unfold table_sum incr
  have hmem : v ∈ Finset.range 65536 := Finset.mem_range.mpr hv
  rw [Finset.sum_update_of_mem hmem, u32_of_lt hf, Finset.sdiff_singleton_eq_erase,
    ← Finset.add_sum_erase _ f hmem]
  omega

theorem le_table_sum (f : Nat → Nat) (v : Nat) (hv : v < 65536) : f v ≤ table_sum f := by
  unfold table_sum
  exact Finset.single_le_sum (fun _ _ => Nat.zero_le _) (Finset.mem_range.mpr hv)

theorem table_sum_zero : table_sum (fun _ => 0) = 0 := by
  unfold table_sum
  exact Finset.sum_const_zero

theorem visited_cons (s : Conceal) (coef : Nat) (rest : List Nat) :
    visited s (coef :: rest) =
      (if s.msg.isSome ∧ s.msg_byte ≥ msg_size s then 0 else 1) +
        visited (bit_read s coef) rest := rfl

theorem visited_le (cells : List Nat) : ∀ s : Conceal, visited s cells ≤ cells.length := by
  induction cells with
  | nil => intro s; exact le_refl _
  | cons c rest ih =>
    intro s
    rw [visited_cons, List.length_cons]
    have := ih (bit_read s c)
    split_ifs <;> omega

theorem visited_none (cells : List Nat) :
    ∀ s : Conceal, s.msg = none → visited s cells = cells.length := by
  induction cells with
  | nil => intro s _; rfl
  | cons c rest ih =>
    intro s h
    rw [visited_cons, List.length_cons, if_neg (not_full_none s h),
      ih _ (bit_read_msg_none s c h)]
    omega

theorem bit_read_occur (s : Conceal) (coef : Nat) :
    (bit_read s coef).occur =
      if s.msg.isSome ∧ s.msg_byte ≥ msg_size s then s.occur else incr s.occur coef := by
  unfold bit_read
  dsimp only
  split_ifs <;> rfl

/-- The READ pass adds one to one entry of `occur` at every cell at which
`bit_read` does not return early. -/
theorem read_occur_sum (rnd : Nat → Nat) (above : Nat → Bool) (cells : List Nat) :
    ∀ s : Conceal, (∀ c ∈ cells, c < 65536) → table_sum s.occur + cells.length < 2 ^ 32 →
      table_sum (pass_loop rnd above .READ s cells).1.occur =
        table_sum s.occur + visited s cells := by
  induction cells with
  | nil =>
    intro s _ _
    show table_sum s.occur = table_sum s.occur + 0
    rw [Nat.add_zero]
  | cons c rest ih =>
    intro s hcells hlen
    simp only [List.length_cons] at hlen
    have hc : c < 65536 := hcells c (List.mem_cons_self _ _)
    have hle := le_table_sum s.occur c hc
    have hocc := bit_read_occur s c
    rw [pass_loop_read_cons, visited_cons]
    by_cases hf : s.msg.isSome ∧ s.msg_byte ≥ msg_size s
    · rw [if_pos hf] at hocc ⊢
      rw [ih (bit_read s c) (fun x hx => hcells x (List.mem_cons_of_mem _ hx))
        (by rw [hocc]; omega), hocc, Nat.zero_add]
    · rw [if_neg hf] at hocc ⊢
      have hs := table_sum_incr s.occur c hc (by omega)
      rw [ih (bit_read s c) (fun x hx => hcells x (List.mem_cons_of_mem _ hx))
        (by rw [hocc, hs]; omega), hocc, hs]
      omega

theorem carriers_cons (total : Nat → Nat) (c : Nat) (rest : List Nat) :
    carriers total (c :: rest) = (if live total c then 1 else 0) + carriers total rest := by
  unfold carriers
  rw [List.filter_cons]
  split_ifs with h1 h2 h2
  · simp only [List.length_cons]; omega
  · exact absurd (of_decide_eq_true h1) h2
  · exact absurd (decide_eq_true h2) h1
  · omega

theorem carriers_le (total : Nat → Nat) (cells : List Nat) :
    carriers total cells ≤ cells.length := by
  unfold carriers
  exact List.length_filter_le _ _

/-- The WRITE pass adds one to one entry of `occur` at every cell that
`bit_test` does not class INVALID. -/
theorem write_occur_sum (rnd : Nat → Nat) (above : Nat → Bool) (cells : List Nat) :
    ∀ w : Conceal, (∀ c ∈ cells, c < 65536) → table_sum w.occur + cells.length < 2 ^ 32 →
      table_sum (pass_loop rnd above .WRITE w cells).1.occur =
        table_sum w.occur + carriers w.total cells := by
  induction cells with
  | nil =>
    intro w _ _
    show table_sum w.occur = table_sum w.occur + 0
    rw [Nat.add_zero]
  | cons c rest ih =>
    intro w hcells hlen
    simp only [List.length_cons] at hlen
    have hc : c < 65536 := hcells c (List.mem_cons_self _ _)
    have hrest : ∀ x ∈ rest, x < 65536 := fun x hx => hcells x (List.mem_cons_of_mem _ hx)
    have htot := (write_bit_total rnd above w c).1
    rw [pass_loop_write_cons, carriers_cons]
    dsimp only
    by_cases h : bit_test w c (correlation c) = INVALID
    · have e := bit_write_invalid rnd above w c h
      have hnl : ¬ live w.total c := fun hl => hl ((bit_test_invalid_iff w c _).mp h)
      rw [e, if_neg hnl]
      dsimp only
      rw [ih w hrest (by omega)]
      omega
    · have hl : live w.total c := live_of_bit_test w c h
      obtain ⟨_, _, hocc, _⟩ := bit_write_valid rnd above w c hc h
      have hv := bit_write_cell_lt rnd above w c hc
      have hle := le_table_sum w.occur _ hv
      have hs := table_sum_incr w.occur _ hv (by omega)
      rw [if_pos hl, ih _ hrest (by rw [hocc, hs]; omega), hocc, hs, htot]
      omega

/-! ## Sum of `occur` after a pass -/

theorem pass_write_occur_sum (rnd : Nat → Nat) (above : Nat → Bool) (s : Conceal)
    (P cells : List Nat) (hcells : ∀ c ∈ cells, c < 65536) (hlen : cells.length < 2 ^ 32) :
    table_sum (pass_write rnd above s P cells).1.occur = carriers s.total cells := by
  have h := write_occur_sum rnd above cells (pass_init .WRITE { s with msg := some P }) hcells
    (by
      show table_sum (fun _ => 0) + cells.length < 2 ^ 32
      rw [table_sum_zero]
      omega)
  unfold pass_write pass
  rw [h]
  show table_sum (fun _ => 0) + carriers s.total cells = carriers s.total cells
  rw [table_sum_zero, Nat.zero_add]

theorem pass_read_occur_sum (s : Conceal) (cells : List Nat)
    (hcells : ∀ c ∈ cells, c < 65536) (hlen : cells.length < 2 ^ 32) :
    table_sum (pass_read s cells).occur = visited (pass_init .READ s) cells := by
  have h := read_occur_sum (fun _ => 0) (fun _ => false) cells (pass_init .READ s) hcells
    (by
      show table_sum (fun _ => 0) + cells.length < 2 ^ 32
      rw [table_sum_zero]
      omega)
  unfold pass_read pass
  rw [h]
  show table_sum (fun _ => 0) + _ = _
  rw [table_sum_zero, Nat.zero_add]

/-- C8, as the code has it: after the READ pass without destination the
entries of `occur` add up to the number of coefficients; after a WRITE pass
they add up to the number of coefficients that `bit_test` does not class
INVALID; after the READ pass of `read ()` into its buffer they add up to the
number of coefficients visited before the buffer was full. -/
theorem C8_occurrence_sum (rnd : Nat → Nat) (above : Nat → Bool) (null_on_zero : Bool)
    (s : Conceal) (P cells : List Nat) (hcells : ∀ c ∈ cells, c < 65536)
    (hlen : cells.length < 2 ^ 32) :
    table_sum (current_size s cells).1.occur = cells.length ∧
    (table_sum (pass_write rnd above s P cells).1.occur = carriers s.total cells ∧
      carriers s.total cells ≤ cells.length) ∧
    ∃ r, read null_on_zero s cells = some r ∧
      table_sum r.1.occur =
        visited (pass_init .READ
          { s with msg := calloc_span null_on_zero (current_size s cells).2 }) cells ∧
      table_sum r.1.occur ≤ cells.length := by
  refine ⟨?_, ⟨pass_write_occur_sum rnd above s P cells hcells hlen, carriers_le _ _⟩, ?_⟩
  · show table_sum (pass_read { s with msg := none } cells).occur = cells.length
    rw [pass_read_occur_sum _ cells hcells hlen]
    exact visited_none cells _ rfl
  · obtain ⟨r, r1, _, _, r4, _⟩ := read_ok null_on_zero s cells
    have h := pass_read_occur_sum
      { s with msg := calloc_span null_on_zero (current_size s cells).2 } cells hcells hlen
    have e : r.1 = pass_read
        { s with msg := calloc_span null_on_zero (current_size s cells).2 } cells := r4
    refine ⟨r, r1, by rw [e, h], ?_⟩
    rw [e, h]
    exact visited_le _ _

theorem C8_occurrence_sum_witness :
    ((∀ c ∈ [3, 4, 0], c < 65536) ∧ [3, 4, 0].length < 2 ^ 32) ∧
    table_sum (current_size (with_total (histogram [3, 4, 0])) [3, 4, 0]).1.occur = 3 :=
  ⟨⟨by decide, by decide⟩,
    (C8_occurrence_sum (fun _ => 0) (fun _ => false) false (with_total (histogram [3, 4, 0]))
      [] [3, 4, 0] (by decide) (by decide)).1⟩

/-- C8 fails as stated: in the cover `[3, 4, 0]` the WRITE pass skips the zero
coefficient, so `occur` adds up to 2 and not to 3; and in the cover of
eighteen cells `3, 4, 3, 4, ...` the READ pass of `read ()` fills its one byte
at the tenth cell and skips the other eight, so `occur` adds up to 10. -/
theorem C8_occurrence_total_fails :
    table_sum (pass_write (fun _ => 0) (above_entropy 0 0) (with_total (histogram [3, 4, 0]))
      [] [3, 4, 0]).1.occur ≠ [3, 4, 0].length ∧
    ∃ r, read false
        (with_total (histogram [3, 4, 3, 4, 3, 4, 3, 4, 3, 4, 3, 4, 3, 4, 3, 4, 3, 4]))
        [3, 4, 3, 4, 3, 4, 3, 4, 3, 4, 3, 4, 3, 4, 3, 4, 3, 4] = some r ∧
      table_sum r.1.occur ≠ [3, 4, 3, 4, 3, 4, 3, 4, 3, 4, 3, 4, 3, 4, 3, 4, 3, 4].length := by
  constructor
  · rw [pass_write_occur_sum _ _ _ _ _ (by decide) (by decide)]
    decide
  · obtain ⟨r, r1, _, _, r4, _⟩ := read_ok false
      (with_total (histogram [3, 4, 3, 4, 3, 4, 3, 4, 3, 4, 3, 4, 3, 4, 3, 4, 3, 4]))
      [3, 4, 3, 4, 3, 4, 3, 4, 3, 4, 3, 4, 3, 4, 3, 4, 3, 4]
    refine ⟨r, r1, ?_⟩
    have e : r.1 = pass_read
        { with_total (histogram [3, 4, 3, 4, 3, 4, 3, 4, 3, 4, 3, 4, 3, 4, 3, 4, 3, 4]) with
          msg := calloc_span false (current_size
            (with_total (histogram [3, 4, 3, 4, 3, 4, 3, 4, 3, 4, 3, 4, 3, 4, 3, 4, 3, 4]))
            [3, 4, 3, 4, 3, 4, 3, 4, 3, 4, 3, 4, 3, 4, 3, 4, 3, 4]).2 }
        [3, 4, 3, 4, 3, 4, 3, 4, 3, 4, 3, 4, 3, 4, 3, 4, 3, 4] := r4
    rw [e, pass_read_occur_sum _ _ (by decide) (by decide)]
    decide

/-! ## The cursor at the end of the WRITE pass -/

/-- The cursor of the WRITE pass stays below the end of the payload or stops
exactly on it. -/
theorem write_cursor_shape (rnd : Nat → Nat) (above : Nat → Bool) (P : List Nat)
    (cells : List Nat) :
    ∀ w : Conceal, (∀ c ∈ cells, c < 65536) → w.msg = some P → w.msg_bit < 8 →
      (w.msg_byte < P.length ∨ (w.msg_byte = P.length ∧ w.msg_bit = 0)) →
      (pass_loop rnd above .WRITE w cells).1.msg_bit < 8 ∧
      ((pass_loop rnd above .WRITE w cells).1.msg_byte < P.length ∨
        ((pass_loop rnd above .WRITE w cells).1.msg_byte = P.length ∧
          (pass_loop rnd above .WRITE w cells).1.msg_bit = 0)) := by
  induction cells with
  | nil => intro w _ _ hb h; exact ⟨hb, h⟩
  | cons c rest ih =>
    intro w hcells hP hb h
    have hc : c < 65536 := hcells c (List.mem_cons_self _ _)
    have hrest : ∀ x ∈ rest, x < 65536 := fun x hx => hcells x (List.mem_cons_of_mem _ hx)
    have hcur := bit_write_cursor rnd above w c hc
    have hmsg := (write_bit_total rnd above w c).2
    have hsz : msg_size w = P.length := by unfold msg_size; rw [hP]
    rw [pass_loop_write_cons]
    dsimp only
    split_ifs at hcur with hx
    · obtain ⟨c1, c2, _⟩ := hcur
      have ha := advance_byte_bit w hb
      have hm : w.msg_byte < P.length := by rw [← hsz]; exact hx.2
      apply ih (bit_write rnd above w c).1 hrest (hmsg.trans hP)
      · rw [c2, ha.2]; omega
      · rw [c1, c2, ha.1, ha.2]
        by_cases h7 : w.msg_bit = 7
        · rw [if_pos h7, h7]
          have := u64_le (w.msg_byte + 1)
          by_cases hlt : u64 (w.msg_byte + 1) < P.length
          · exact Or.inl hlt
          · exact Or.inr ⟨by omega, rfl⟩
        · rw [if_neg h7]
          have := u64_le (w.msg_byte + 0)
          exact Or.inl (by omega)
    · apply ih (bit_write rnd above w c).1 hrest (hmsg.trans hP)
      · rw [hcur.2]; exact hb
      · rw [hcur.1, hcur.2]; exact h

/-- C2, as the code has it: for every cover and every payload `P` the WRITE
pass ends with `msg_byte ≤ |P|`; it ends with the cursor `(|P|, 0)` exactly
when `write (P)` does not throw, and with `msg_byte < |P|` exactly when it
throws.  That `|P|` is at most `current_size ()` does not decide which. -/
theorem C2_cursor_termination (rnd : Nat → Nat) (above : Nat → Bool) (s : Conceal)
    (P cells : List Nat) (hcells : ∀ c ∈ cells, c < 65536) :
    (pass_write rnd above s P cells).1.msg_byte ≤ P.length ∧
    ((pass_write rnd above s P cells).1.msg_byte = P.length →
      (pass_write rnd above s P cells).1.msg_bit = 0 ∧
      write rnd above s P cells = some (pass_write rnd above s P cells)) ∧
    ((pass_write rnd above s P cells).1.msg_byte < P.length →
      write rnd above s P cells = none) := by
  have h := write_cursor_shape rnd above P cells (pass_init .WRITE { s with msg := some P })
    hcells rfl (by show 0 < 8; omega)
    (by
      show 0 < P.length ∨ (0 = P.length ∧ 0 = 0)
      omega)
  have hmsg := (pass_loop_write_total rnd above cells
    (pass_init .WRITE { s with msg := some P })).2.1
  have hsz : msg_size (pass_write rnd above s P cells).1 = P.length := by
    unfold pass_write pass msg_size
    rw [hmsg]
    rfl
  have h2 : (pass_write rnd above s P cells).1.msg_byte < P.length ∨
      ((pass_write rnd above s P cells).1.msg_byte = P.length ∧
        (pass_write rnd above s P cells).1.msg_bit = 0) := h.2
  refine ⟨by omega, ?_, ?_⟩
  · intro he
    refine ⟨by omega, ?_⟩
    unfold write
    dsimp only
    rw [if_neg]
    rw [hsz]
    exact fun hx => hx he
  · intro hlt
    unfold write
    dsimp only
    rw [if_pos]
    rw [hsz]
    omega

theorem C2_cursor_termination_witness :
    (∀ c ∈ [4, 3, 3, 3, 3, 3, 3, 3, 4], c < 65536) ∧
    write (fun _ => 0) (above_entropy 1 7) (with_total (histogram [4, 3, 3, 3, 3, 3, 3, 3, 4]))
      [45] [4, 3, 3, 3, 3, 3, 3, 3, 4] = none :=
  ⟨by decide,
    (C2_cursor_termination (fun _ => 0) (above_entropy 1 7)
      (with_total (histogram [4, 3, 3, 3, 3, 3, 3, 3, 4])) [45] [4, 3, 3, 3, 3, 3, 3, 3, 4]
      (by decide)).2.2 (by decide)⟩

/-- C2 fails as stated: the cover `4, 3, 3, 3, 3, 3, 3, 3, 4` has
`current_size () = 1`, and the WRITE pass for the one-byte payload `45` ends
with the cursor `(0, 4)`, so `write` throws. -/
theorem C2_capacity_not_sufficient :
    (current_size (with_total (histogram [4, 3, 3, 3, 3, 3, 3, 3, 4]))
      [4, 3, 3, 3, 3, 3, 3, 3, 4]).2 = 1 ∧
    [45].length ≤ 1 ∧
    (pass_write (fun _ => 0) (above_entropy 1 7)
      (with_total (histogram [4, 3, 3, 3, 3, 3, 3, 3, 4])) [45]
      [4, 3, 3, 3, 3, 3, 3, 3, 4]).1.msg_byte = 0 ∧
    (pass_write (fun _ => 0) (above_entropy 1 7)
      (with_total (histogram [4, 3, 3, 3, 3, 3, 3, 3, 4])) [45]
      [4, 3, 3, 3, 3, 3, 3, 3, 4]).1.msg_bit = 4 ∧
    (write (fun _ => 0) (above_entropy 1 7)
      (with_total (histogram [4, 3, 3, 3, 3, 3, 3, 3, 4])) [45]
      [4, 3, 3, 3, 3, 3, 3, 3, 4]).isNone = true := by
  refine ⟨by decide, by decide, by decide, by decide, by decide⟩

/-! ## An upper bound on what a cover can carry -/

/-- The WRITE pass carries at most one bit per cell that `bit_test` does not
class INVALID. -/
theorem write_bits_length_le (rnd : Nat → Nat) (above : Nat → Bool) (cells : List Nat) :
    ∀ w : Conceal, (∀ c ∈ cells, c < 65536) →
      (write_bits rnd above w cells).length ≤ carriers w.total cells := by
  induction cells with
  | nil => intro w _; exact Nat.zero_le _
  | cons c rest ih =>
    intro w hcells
    have hc : c < 65536 := hcells c (List.mem_cons_self _ _)
    have hrest : ∀ x ∈ rest, x < 65536 := fun x hx => hcells x (List.mem_cons_of_mem _ hx)
    have hi := ih (bit_write rnd above w c).1 hrest
    rw [(write_bit_total rnd above w c).1] at hi
    rw [write_bits_cons, carriers_cons, List.length_append]
    by_cases h : bit_test w c (correlation c) = INVALID
    · have e := bit_write_invalid rnd above w c h
      have hge : ¬ bit_test w (bit_write rnd above w c).2
          (correlation (bit_write rnd above w c).2) < PADDING := by
        rw [e]
        dsimp only
        rw [h]
        decide
      rw [if_neg hge]
      simp only [List.length_nil]
      omega
    · rw [if_pos (live_of_bit_test w c h)]
      split_ifs
      · simp only [List.length_singleton]
        omega
      · simp only [List.length_nil]
        omega

/-- The READ pass reads at most one bit per cell that `bit_test` does not
class INVALID. -/
theorem read_bits_length_le (cells : List Nat) :
    ∀ s : Conceal, (read_bits s cells).length ≤ carriers s.total cells := by
  induction cells with
  | nil => intro s; exact Nat.zero_le _
  | cons c rest ih =>
    intro s
    have hi := ih (bit_read s c)
    rw [bit_read_total] at hi
    rw [read_bits_cons, carriers_cons, List.length_append]
    by_cases h : bit_test s c (correlation c) = INVALID
    · have hge : ¬ bit_test s c (correlation c) < PADDING := by
        rw [h]
        decide
      rw [if_neg hge]
      simp only [List.length_nil]
      omega
    · rw [if_pos (live_of_bit_test s c h)]
      split_ifs
      · simp only [List.length_singleton]
        omega
      · simp only [List.length_nil]
        omega

/-- C3, as the code has it: `write (P)` throws, whatever the random draws,
when `P` has more bits than the cover has coefficients that `bit_test` does
not class INVALID (paired values whose partner occurs too); `current_size ()`
is at most an eighth of that number, and a payload longer than
`current_size ()` but within that number may be accepted. -/
theorem C3_over_capacity_rejected (rnd : Nat → Nat) (above : Nat → Bool) (s : Conceal)
    (P cells : List Nat) (hcells : ∀ c ∈ cells, c < 65536) (hlen : cells.length < 2 ^ 64)
    (hover : carriers s.total cells < 8 * P.length) :
    8 * (current_size s cells).2 ≤ carriers s.total cells ∧
    (pass_write rnd above s P cells).1.msg_byte < P.length ∧
    write rnd above s P cells = none := by
  have hN := current_size_bits s cells hlen
  have hk : (measure_bits s cells).length ≤ carriers s.total cells :=
    read_bits_length_le cells (pass_init .READ { s with msg := none })
  obtain ⟨_, h2, _, h4, _⟩ := write_bits_payload rnd above P cells
    (pass_init .WRITE { s with msg := some P }) hcells rfl (by show 0 < 8; omega)
    (Nat.zero_le _) (by show 8 * 0 + 0 + cells.length < 2 ^ 64; omega)
  have hp0 : pos (pass_init .WRITE { s with msg := some P }) = 0 := rfl
  have hw : (write_bits rnd above (pass_init .WRITE { s with msg := some P }) cells).length ≤
      carriers s.total cells :=
    write_bits_length_le rnd above cells (pass_init .WRITE { s with msg := some P }) hcells
  rw [hp0] at h4
  unfold pos at h4
  have hlt : (pass_write rnd above s P cells).1.msg_byte < P.length := by
    show (pass_loop rnd above .WRITE (pass_init .WRITE { s with msg := some P })
      cells).1.msg_byte < P.length
    omega
  refine ⟨by omega, hlt, ?_⟩
  have hmsg := (pass_loop_write_total rnd above cells
    (pass_init .WRITE { s with msg := some P })).2.1
  have hsz : msg_size (pass_write rnd above s P cells).1 = P.length := by
    unfold pass_write pass msg_size
    rw [hmsg]
    rfl
  unfold write
  dsimp only
  rw [if_pos]
  rw [hsz]
  omega

theorem C3_over_capacity_rejected_witness :
    ((∀ c ∈ [3, 4, 0], c < 65536) ∧ [3, 4, 0].length < 2 ^ 64 ∧
      carriers (with_total (histogram [3, 4, 0])).total [3, 4, 0] < 8 * [7].length) ∧
    write (fun _ => 0) (above_entropy 0 0) (with_total (histogram [3, 4, 0])) [7] [3, 4, 0]
      = none :=
  ⟨⟨by decide, by decide, by decide⟩,
    (C3_over_capacity_rejected (fun _ => 0) (above_entropy 0 0)
      (with_total (histogram [3, 4, 0])) [7] [3, 4, 0] (by decide) (by decide)
      (by decide)).2.2⟩

set_option maxRecDepth 100000 in
/-- C3 fails as stated: the cover of eighteen cells below has
`current_size () = 1`, and `write` accepts the two-byte payload `0, 16`: the
WRITE pass ends with the cursor `(2, 0)`. -/
theorem C3_over_capacity_accepted :
    (current_size (with_total (histogram [4, 4, 4, 4, 3, 4, 4, 4, 4, 3, 4, 4, 4, 4, 3, 4, 4, 4]))
      [4, 4, 4, 4, 3, 4, 4, 4, 4, 3, 4, 4, 4, 4, 3, 4, 4, 4]).2 = 1 ∧
    [0, 16].length = 1 + 1 ∧
    (pass_write (fun _ => 0) (above_entropy 7 1)
      (with_total (histogram [4, 4, 4, 4, 3, 4, 4, 4, 4, 3, 4, 4, 4, 4, 3, 4, 4, 4])) [0, 16]
      [4, 4, 4, 4, 3, 4, 4, 4, 4, 3, 4, 4, 4, 4, 3, 4, 4, 4]).1.msg_byte = [0, 16].length ∧
    (write (fun _ => 0) (above_entropy 7 1)
      (with_total (histogram [4, 4, 4, 4, 3, 4, 4, 4, 4, 3, 4, 4, 4, 4, 3, 4, 4, 4])) [0, 16]
      [4, 4, 4, 4, 3, 4, 4, 4, 4, 3, 4, 4, 4, 4, 3, 4, 4, 4]).isSome = true := by
  refine ⟨by decide, by decide, by decide, by decide⟩

/-! ## The size found after writing -/

/-- The WRITE pass adds one to one entry of `count` for every bit it
carries. -/
theorem write_count_sum (rnd : Nat → Nat) (above : Nat → Bool) (cells : List Nat) :
    ∀ w : Conceal, (∀ c ∈ cells, c < 65536) → table_sum w.count + cells.length < 2 ^ 32 →
      table_sum (pass_loop rnd above .WRITE w cells).1.count =
        table_sum w.count + (write_bits rnd above w cells).length := by
  induction cells with
  | nil =>
    intro w _ _
    show table_sum w.count = table_sum w.count + 0
    rw [Nat.add_zero]
  | cons c rest ih =>
    intro w hcells hlen
    simp only [List.length_cons] at hlen
    have hc : c < 65536 := hcells c (List.mem_cons_self _ _)
    have hrest : ∀ x ∈ rest, x < 65536 := fun x hx => hcells x (List.mem_cons_of_mem _ hx)
    rw [pass_loop_write_cons, write_bits_cons, List.length_append]
    dsimp only
    by_cases h : bit_test w c (correlation c) = INVALID
    · have e := bit_write_invalid rnd above w c h
      rw [e]
      dsimp only
      have hge : ¬ bit_test w c (correlation c) < PADDING := by
        rw [h]
        decide
      rw [if_neg hge, ih w hrest (by omega)]
      simp only [List.length_nil]
      omega
    · obtain ⟨_, _, _, hcnt, _⟩ := bit_write_valid rnd above w c hc h
      have hv := bit_write_cell_lt rnd above w c hc
      have hle := le_table_sum w.count _ hv
      have hs := table_sum_incr w.count _ hv (by omega)
      split_ifs at hcnt ⊢ with hb
      · rw [ih _ hrest (by rw [hcnt, hs]; omega), hcnt, hs]
        simp only [List.length_singleton]
        omega
      · rw [ih _ hrest (by rw [hcnt]; omega), hcnt]
        simp only [List.length_nil]
        omega

/-- C4, as the code has it: when `write (P)` does not throw,
`current_size ()` on the cells it leaves is an eighth, rounded down, of the
number of bits the WRITE pass carried, payload and padding, which is the sum
of its `count` table; it is at least `|P|`, and it need not be the
`current_size ()` of the cover. -/
theorem C4_size_after_write (rnd : Nat → Nat) (above : Nat → Bool) (s : Conceal)
    (P cells : List Nat) (hcells : ∀ c ∈ cells, c < 65536) (hlen : cells.length < 2 ^ 32)
    (w : Conceal × List Nat) (hw : write rnd above s P cells = some w) :
    (current_size w.1 w.2).2 = table_sum w.1.count / 8 ∧
    8 * P.length ≤ table_sum w.1.count ∧
    P.length ≤ (current_size w.1 w.2).2 ∧
    w.2.length = cells.length := by
  obtain ⟨hw1, hw2⟩ := write_some rnd above s P cells w hw
  subst hw1
  have hlen64 : cells.length < 2 ^ 64 := by omega
  have hbits := measure_bits_written rnd above s P cells hcells
  obtain ⟨k1, _⟩ := written_bits_payload rnd above s P cells hcells hlen64 hw2
  have hl2 : (pass_write rnd above s P cells).2.length = cells.length := by
    unfold pass_write pass
    exact (pass_loop_write_total rnd above cells _).2.2
  have hN := current_size_bits (pass_write rnd above s P cells).1
    (pass_write rnd above s P cells).2 (by rw [hl2]; exact hlen64)
  rw [hbits] at hN
  have hsum := write_count_sum rnd above cells (pass_init .WRITE { s with msg := some P })
    hcells (by
      show table_sum (fun _ => 0) + cells.length < 2 ^ 32
      rw [table_sum_zero]
      omega)
  have hsum2 : table_sum (pass_write rnd above s P cells).1.count =
      (write_bits rnd above (pass_init .WRITE { s with msg := some P }) cells).length := by
    unfold pass_write pass
    rw [hsum]
    show table_sum (fun _ => 0) + _ = _
    rw [table_sum_zero, Nat.zero_add]
  rw [hsum2, hN]
  refine ⟨rfl, k1, by omega, hl2⟩

set_option maxRecDepth 100000 in
theorem C4_size_after_write_witness :
    ((∀ c ∈ [3, 4, 3, 4, 3, 4, 3, 4, 3, 4, 3, 4, 3, 4, 3, 4, 3, 4], c < 65536) ∧
      [3, 4, 3, 4, 3, 4, 3, 4, 3, 4, 3, 4, 3, 4, 3, 4, 3, 4].length < 2 ^ 32 ∧
      (write (fun _ => 0) (above_entropy 4 4)
        (with_total (histogram [3, 4, 3, 4, 3, 4, 3, 4, 3, 4, 3, 4, 3, 4, 3, 4, 3, 4])) [165]
        [3, 4, 3, 4, 3, 4, 3, 4, 3, 4, 3, 4, 3, 4, 3, 4, 3, 4]).isSome = true) ∧
    [165].length ≤ (current_size
      (pass_write (fun _ => 0) (above_entropy 4 4)
        (with_total (histogram [3, 4, 3, 4, 3, 4, 3, 4, 3, 4, 3, 4, 3, 4, 3, 4, 3, 4])) [165]
        [3, 4, 3, 4, 3, 4, 3, 4, 3, 4, 3, 4, 3, 4, 3, 4, 3, 4]).1
      (pass_write (fun _ => 0) (above_entropy 4 4)
        (with_total (histogram [3, 4, 3, 4, 3, 4, 3, 4, 3, 4, 3, 4, 3, 4, 3, 4, 3, 4])) [165]
        [3, 4, 3, 4, 3, 4, 3, 4, 3, 4, 3, 4, 3, 4, 3, 4, 3, 4]).2).2 :=
  ⟨⟨by decide, by decide, by decide⟩,
    (C4_size_after_write (fun _ => 0) (above_entropy 4 4)
      (with_total (histogram [3, 4, 3, 4, 3, 4, 3, 4, 3, 4, 3, 4, 3, 4, 3, 4, 3, 4])) [165]
      [3, 4, 3, 4, 3, 4, 3, 4, 3, 4, 3, 4, 3, 4, 3, 4, 3, 4] (by decide) (by decide) _ (by
        unfold write
        dsimp only
        rw [if_neg (by decide)])).2.2.1⟩

set_option maxRecDepth 100000 in
/-- C4 fails as stated: the cover `3, 4, ..., 4, 3` with fifteen cells `4` has
`current_size () = 2`; `write` accepts the one-byte payload `0`, and on the
cells it leaves `current_size ()` is 1. -/
theorem C4_capacity_not_preserved :
    (current_size (with_total (histogram [3, 4, 4, 4, 4, 4, 4, 4, 4, 4, 4, 4, 4, 4, 4, 4, 3]))
      [3, 4, 4, 4, 4, 4, 4, 4, 4, 4, 4, 4, 4, 4, 4, 4, 3]).2 = 2 ∧
    (write (fun _ => 0) (above_entropy 15 1)
      (with_total (histogram [3, 4, 4, 4, 4, 4, 4, 4, 4, 4, 4, 4, 4, 4, 4, 4, 3])) [0]
      [3, 4, 4, 4, 4, 4, 4, 4, 4, 4, 4, 4, 4, 4, 4, 4, 3]).isSome = true ∧
    (current_size
      (pass_write (fun _ => 0) (above_entropy 15 1)
        (with_total (histogram [3, 4, 4, 4, 4, 4, 4, 4, 4, 4, 4, 4, 4, 4, 4, 4, 3])) [0]
        [3, 4, 4, 4, 4, 4, 4, 4, 4, 4, 4, 4, 4, 4, 4, 4, 3]).1
      (pass_write (fun _ => 0) (above_entropy 15 1)
        (with_total (histogram [3, 4, 4, 4, 4, 4, 4, 4, 4, 4, 4, 4, 4, 4, 4, 4, 3])) [0]
        [3, 4, 4, 4, 4, 4, 4, 4, 4, 4, 4, 4, 4, 4, 4, 4, 3]).2).2 = 1 := by
  refine ⟨by decide, by decide, by decide!⟩

/-! ## The histogram built by the INIT pass -/

theorem count_cons_eq (u c : Nat) (rest : List Nat) :
    (c :: rest).count u = rest.count u + if c = u then 1 else 0 := by
  rw [List.count_cons]
  simp only [beq_iff_eq]

theorem pass_loop_init_cons (rnd : Nat → Nat) (above : Nat → Bool) (s : Conceal)
    (coef : Nat) (rest : List Nat) :
    (pass_loop rnd above .INIT s (coef :: rest)).1 =
      (pass_loop rnd above .INIT { s with total := incr s.total coef } rest).1 := rfl

/-- The INIT loop adds to each entry of `total` the number of cells with
that value, as long as no entry wraps. -/
theorem init_total (rnd : Nat → Nat) (above : Nat → Bool) (cells : List Nat) :
    ∀ s : Conceal, (∀ u, s.total u + cells.count u < 2 ^ 32) →
      ∀ u, (pass_loop rnd above .INIT s cells).1.total u = s.total u + cells.count u := by
  induction cells with
  | nil => intro s _ u; rfl
  | cons c rest ih =>
    intro s h u
    have hc := h c
    rw [count_cons_eq, if_pos rfl] at hc
    rw [pass_loop_init_cons, ih _ (by
      intro x
      have hx := h x
      rw [count_cons_eq] at hx
      show incr s.total c x + rest.count x < 2 ^ 32
      rw [incr_apply]
      by_cases hxc : x = c
      · rw [if_pos hxc, u32_of_lt (by omega)]
        rw [if_pos hxc.symm, hxc] at hx
        rw [hxc]
        omega
      · rw [if_neg hxc]
        rw [if_neg (fun e => hxc e.symm)] at hx
        omega)]
    show incr s.total c u + rest.count u = s.total u + (c :: rest).count u
    rw [incr_apply, count_cons_eq]
    by_cases huc : u = c
    · rw [if_pos huc, if_pos huc.symm, u32_of_lt (by omega), huc]
      omega
    · rw [if_neg huc, if_neg (fun e => huc e.symm)]
      omega

/-- The table built by the INIT pass counts the cells, when there are fewer
than `2 ^ 32` of them. -/
theorem histogram_count (cells : List Nat) (hlen : cells.length < 2 ^ 32) (u : Nat) :
    histogram cells u = cells.count u := by
  unfold histogram pass
  have hle : ∀ x, cells.count x ≤ cells.length := fun x => List.count_le_length _ _
  rw [init_total _ _ cells _ (by
    intro x
    have := hle x
    show 0 + cells.count x < 2 ^ 32
    omega)]
  show 0 + cells.count u = cells.count u
  omega

/-! ## The counter invariant -/

theorem bit_read_count (s : Conceal) (coef : Nat) :
    (bit_read s coef).count =
      if s.msg.isSome ∧ s.msg_byte ≥ msg_size s then s.count
      else if bit_test s coef (correlation coef) < PADDING then incr s.count coef
      else s.count := by
  unfold bit_read
  dsimp only
  split_ifs <;> rfl

/-- The READ pass keeps `count ≤ occur ≤ total` after every cell, when each
entry of `occur` has room for the cells still to come. -/
theorem read_invariant (rnd : Nat → Nat) (above : Nat → Bool) (cells : List Nat) :
    ∀ (s : Conceal) (n : Nat), (∀ u, s.count u ≤ s.occur u) →
      (∀ u, s.occur u + cells.count u ≤ s.total u) → (∀ u, s.total u < 2 ^ 32) →
      counters_ok (pass_loop rnd above .READ s (cells.take n)).1 := by
  induction cells with
  | nil =>
    intro s n h1 h2 _ u
    rw [List.take_nil]
    have := h2 u
    exact ⟨h1 u, by simp only [List.count_nil, Nat.add_zero] at this; exact this⟩
  | cons c rest ih =>
    intro s n h1 h2 h3
    cases n with
    | zero =>
      intro u
      have := h2 u
      exact ⟨h1 u, by show s.occur u ≤ s.total u; omega⟩
    | succ n =>
      rw [List.take_succ_cons, pass_loop_read_cons]
      have hc := h2 c
      rw [count_cons_eq, if_pos rfl] at hc
      have hc1 := h1 c
      have hc3 := h3 c
      apply ih (bit_read s c) n
      · intro u
        rw [bit_read_count, bit_read_occur]
        have hu := h1 u
        split_ifs with hf hb
        · exact hu
        · rw [incr_apply, incr_apply]
          split_ifs with huc
          · rw [u32_of_lt (by omega), u32_of_lt (by omega)]
            omega
          · exact hu
        · rw [incr_apply]
          split_ifs with huc
          · rw [u32_of_lt (by omega), huc] at *
            omega
          · exact hu
      · intro u
        rw [bit_read_occur, bit_read_total]
        have hu := h2 u
        rw [count_cons_eq] at hu
        split_ifs with hf
        · omega
        · rw [incr_apply]
          by_cases huc : u = c
          · rw [if_pos huc, u32_of_lt (by omega)]
            rw [if_pos huc.symm] at hu
            rw [huc] at hu ⊢
            omega
          · rw [if_neg huc]
            omega
      · intro u
        rw [bit_read_total]
        exact h3 u

theorem incr_add (f : Nat → Nat) (v u : Nat) (h : f v + 1 < 2 ^ 32) :
    incr f v u = f u + if u = v then 1 else 0 := by
  rw [incr_apply]
  by_cases huv : u = v
  · rw [if_pos huv, if_pos huv, u32_of_lt h, huv]
  · rw [if_neg huv, if_neg huv, Nat.add_zero]

theorem correlation_ne_self (u : Nat) (hu : u < 65536) (h : correlation u ≠ 0) :
    correlation u ≠ u := fun e => correlation_parity u hu h (by rw [e])

/-- The WRITE pass keeps `count ≤ occur ≤ total` after every cell, when the
two buckets of each live pair have room for the cells of the pair still to
come. -/
theorem write_invariant (rnd : Nat → Nat) (above : Nat → Bool) (cells : List Nat) :
    ∀ (w : Conceal) (n : Nat), (∀ c ∈ cells, c < 65536) → (∀ u, w.count u ≤ w.occur u) →
      (∀ u, w.occur u ≤ w.total u) → (∀ u, w.total u < 2 ^ 32) →
      (∀ u, u < 65536 → live w.total u →
        w.occur u + w.occur (correlation u) + cells.count u + cells.count (correlation u) ≤
          w.total u + w.total (correlation u)) →
      counters_ok (pass_loop rnd above .WRITE w (cells.take n)).1 := by
  induction cells with
  | nil =>
    intro w n _ h1 h2 _ _ u
    rw [List.take_nil]
    exact ⟨h1 u, h2 u⟩
  | cons c rest ih =>
    intro w n hcells h1 h2 h3 h4
    cases n with
    | zero => intro u; exact ⟨h1 u, h2 u⟩
    | succ n =>
      have hc : c < 65536 := hcells c (List.mem_cons_self _ _)
      have hrest : ∀ x ∈ rest, x < 65536 := fun x hx => hcells x (List.mem_cons_of_mem _ hx)
      rw [List.take_succ_cons, pass_loop_write_cons]
      dsimp only
      by_cases h : bit_test w c (correlation c) = INVALID
      · rw [bit_write_invalid rnd above w c h]
        dsimp only
        apply ih w n hrest h1 h2 h3
        intro u hu hl
        have := h4 u hu hl
        rw [count_cons_eq, count_cons_eq] at this
        omega
      · obtain ⟨hv, _, hocc, hcnt, hfull, hnf, _⟩ := bit_write_valid rnd above w c hc h
        have htot := (write_bit_total rnd above w c).1
        have hl : live w.total c := live_of_bit_test w c h
        have hd0 : correlation c ≠ 0 := fun hx => hl (Or.inr (Or.inl hx))
        have hinv : correlation (correlation c) = c := correlation_invol c hc hd0
        have hvlt := bit_write_cell_lt rnd above w c hc
        have hroom : w.occur (bit_write rnd above w c).2 <
            w.total (bit_write rnd above w c).2 := by
          by_cases hoc : w.occur c < w.total c
          · exact hnf hoc
          · have e := hfull (Nat.le_of_not_lt hoc)
            have hp := h4 c hc hl
            rw [count_cons_eq, if_pos rfl] at hp
            rw [e]
            omega
        have hw32 : w.occur (bit_write rnd above w c).2 + 1 < 2 ^ 32 := by
          have := h3 (bit_write rnd above w c).2
          omega
        have hc32 : w.count (bit_write rnd above w c).2 + 1 < 2 ^ 32 := by
          have := h1 (bit_write rnd above w c).2
          omega
        apply ih (bit_write rnd above w c).1 n hrest
        · intro u
          rw [hocc, hcnt, incr_add _ _ _ hw32]
          have hu := h1 u
          split_ifs with hb huv
          · rw [incr_add _ _ _ hc32, if_pos huv]
            omega
          · rw [incr_add _ _ _ hc32, if_neg huv]
            omega
          · omega
          · omega
        · intro u
          rw [hocc, htot, incr_add _ _ _ hw32]
          have hu := h2 u
          split_ifs with huv
          · rw [huv]
            omega
          · omega
        · intro u
          rw [htot]
          exact h3 u
        · intro u hu hlu
          rw [htot] at hlu ⊢
          have hp := h4 u hu hlu
          have hud0 : correlation u ≠ 0 := fun hx => hlu (Or.inr (Or.inl hx))
          have huinv : correlation (correlation u) = u := correlation_invol u hu hud0
          rw [count_cons_eq, count_cons_eq] at hp
          rw [hocc, incr_add _ _ _ hw32, incr_add _ _ _ hw32]
          rcases hv with e | e
          · rw [e]
            have e1 : (if u = c then 1 else 0 : Nat) = if c = u then 1 else 0 :=
              if_congr eq_comm rfl rfl
            have e2 : (if correlation u = c then 1 else 0 : Nat) =
                if c = correlation u then 1 else 0 := if_congr eq_comm rfl rfl
            rw [e1, e2]
            omega
          · rw [e]
            have e1 : (if u = correlation c then 1 else 0 : Nat) =
                if c = correlation u then 1 else 0 :=
              if_congr ⟨fun hx => by rw [hx, hinv], fun hx => by rw [hx, huinv]⟩ rfl rfl
            have e2 : (if correlation u = correlation c then 1 else 0 : Nat) =
                if c = u then 1 else 0 :=
              if_congr ⟨fun hx => by rw [← hinv, ← hx, huinv], fun hx => by rw [hx]⟩ rfl rfl
            rw [e1, e2]
            omega

/-- C7: in a WRITE or READ pass (any payload, any destination or none)
started from a state whose `total` table is the histogram of the coefficient
array, `count[u] ≤ occur[u] ≤ total[u]` holds for every `u` after every cell
of the pass, that is in the state reached after the first `n` cells, for
every `n`. -/
theorem C7_counter_invariant (rnd : Nat → Nat) (above : Nat → Bool) (s : Conceal)
    (cells : List Nat) (hcells : ∀ c ∈ cells, c < 65536) (hlen : cells.length < 2 ^ 32)
    (htot : s.total = histogram cells) (type : pass_t) (htype : type ≠ .INIT) (n : Nat) :
    ∀ u, (pass_loop rnd above type (pass_init type s) (cells.take n)).1.count u ≤
        (pass_loop rnd above type (pass_init type s) (cells.take n)).1.occur u ∧
      (pass_loop rnd above type (pass_init type s) (cells.take n)).1.occur u ≤
        (pass_loop rnd above type (pass_init type s) (cells.take n)).1.total u := by
  have hcount : ∀ u, s.total u = cells.count u := fun u => by
    rw [htot]
    exact histogram_count cells hlen u
  have h32 : ∀ u, s.total u < 2 ^ 32 := fun u => by
    rw [hcount u]
    have := List.count_le_length u cells
    omega
  cases type with
  | INIT => exact absurd rfl htype
  | WRITE =>
    exact write_invariant rnd above cells (pass_init .WRITE s) n hcells
      (fun _ => le_refl _) (fun _ => Nat.zero_le _) h32
      (fun u _ _ => by
        show 0 + 0 + cells.count u + cells.count (correlation u) ≤
          s.total u + s.total (correlation u)
        rw [hcount u, hcount (correlation u)]
        omega)
  | READ =>
    exact read_invariant rnd above cells (pass_init .READ s) n
      (fun _ => le_refl _)
      (fun u => by
        show 0 + cells.count u ≤ s.total u
        rw [hcount u]
        omega) h32

theorem C7_counter_invariant_witness :
    ((∀ c ∈ [3, 4, 0, 4, 3, 3], c < 65536) ∧ [3, 4, 0, 4, 3, 3].length < 2 ^ 32 ∧
      (with_total (histogram [3, 4, 0, 4, 3, 3])).total = histogram [3, 4, 0, 4, 3, 3] ∧
      pass_t.WRITE ≠ pass_t.INIT) ∧
    (pass_loop (fun _ => 0) (above_entropy 0 0) .WRITE
          (pass_init .WRITE (with_total (histogram [3, 4, 0, 4, 3, 3])))
          ([3, 4, 0, 4, 3, 3].take 4)).1.count 4 ≤
        (pass_loop (fun _ => 0) (above_entropy 0 0) .WRITE
          (pass_init .WRITE (with_total (histogram [3, 4, 0, 4, 3, 3])))
          ([3, 4, 0, 4, 3, 3].take 4)).1.occur 4 ∧
      (pass_loop (fun _ => 0) (above_entropy 0 0) .WRITE
          (pass_init .WRITE (with_total (histogram [3, 4, 0, 4, 3, 3])))
          ([3, 4, 0, 4, 3, 3].take 4)).1.occur 4 ≤
        (pass_loop (fun _ => 0) (above_entropy 0 0) .WRITE
          (pass_init .WRITE (with_total (histogram [3, 4, 0, 4, 3, 3])))
          ([3, 4, 0, 4, 3, 3].take 4)).1.total 4 :=
  ⟨⟨by decide, by decide, rfl, by decide⟩,
    C7_counter_invariant (fun _ => 0) (above_entropy 0 0)
      (with_total (histogram [3, 4, 0, 4, 3, 3])) [3, 4, 0, 4, 3, 3] (by decide) (by decide)
      rfl .WRITE (by decide) 4 4⟩

/-! ## Shape of the pairing -/

/-- C12: `correlation u = u + 1` for every odd `u` from 3 to 0x7FFD (the
pairs (3,4), (5,6), ...); for every `k ≥ 1` with `2k + 2 ≤ 32768` the
partner of the 16-bit encoding of `-(2k+1)` is the encoding of `-(2k+2)`
(the pairs (-3,-4), (-5,-6), ...); and for every 16-bit `u` with
`correlation u ≠ 0` the partner has the opposite least significant bit and
the same sign bit as `u`. -/
theorem C12_pairing_shape :
    (∀ u, u % 2 = 1 → 3 ≤ u → u ≤ 0x7FFD → correlation u = u + 1) ∧
    (∀ k, 1 ≤ k → 2 * k + 2 ≤ 32768 →
      correlation (65536 - (2 * k + 1)) = 65536 - (2 * k + 2)) ∧
    (∀ u, u < 65536 → correlation u ≠ 0 →
      correlation u &&& 1 ≠ u &&& 1 ∧ correlation u >>> 15 = u >>> 15) := by
  refine ⟨?_, ?_, ?_⟩
  · intro u h1 h2 h3
    rw [correlation_eq u (by omega)]
    split_ifs <;> omega
  · intro k h1 h2
    rw [correlation_eq _ (by omega)]
    split_ifs <;> omega
  · intro u hu h
    rw [and_one_eq, and_one_eq, Nat.shiftRight_eq_div_pow, Nat.shiftRight_eq_div_pow]
    refine ⟨correlation_parity u hu h, ?_⟩
    rw [correlation_eq u hu] at h ⊢
    split_ifs at h ⊢ <;> omega

/-! ## The classes of `bit_test` -/

/-- C15: `bit_test` answers INVALID exactly when `coef` or `corr` is zero or
one of their totals is zero; otherwise RESTORE exactly when
`occur[coef] ≥ total[coef]`; otherwise PADDING when
`occur[corr] ≥ total[corr]`; otherwise `coef & 1` when `seen < quota` and
PADDING when not (so also when `seen = quota`); and an answer 0 or 1 is
always `coef & 1`. -/
theorem C15_bit_test_classes (s : Conceal) (coef corr : Nat) :
    (bit_test s coef corr = INVALID ↔
      (coef = 0 ∨ corr = 0 ∨ s.total coef = 0 ∨ s.total corr = 0)) ∧
    (¬ (coef = 0 ∨ corr = 0 ∨ s.total coef = 0 ∨ s.total corr = 0) →
      (bit_test s coef corr = RESTORE ↔ s.occur coef ≥ s.total coef) ∧
      (s.occur coef < s.total coef → s.occur corr ≥ s.total corr →
        bit_test s coef corr = PADDING) ∧
      (s.occur coef < s.total coef → s.occur corr < s.total corr →
        bit_test s coef corr =
          if (if s.occur coef ≠ 0 then u32 (s.count coef <<< 16) / s.occur coef else 0) <
              u32 (s.total coef <<< 16) / s.total corr
          then coef &&& 1 else PADDING)) ∧
    (bit_test s coef corr = 0 ∨ bit_test s coef corr = 1 →
      bit_test s coef corr = coef &&& 1) := by
  refine ⟨bit_test_invalid_iff s coef corr, ?_, ?_⟩
  · intro hn
    refine ⟨?_, ?_, ?_⟩
    · rw [bit_test_restore_iff]
      exact ⟨fun h => h.2, fun h => ⟨hn, h⟩⟩
    · intro h1 h2
      unfold bit_test
      rw [if_neg hn, if_neg (by omega), if_pos h2]
    · intro h1 h2
      unfold bit_test
      rw [if_neg hn, if_neg (by omega), if_neg (by omega)]
  · intro h
    have hlt : bit_test s coef corr < PADDING := by
      show bit_test s coef corr < 2
      omega
    rw [(bit_test_bit s coef corr hlt).2.2.2, and_one_eq]

/-! ## What the passes leave alone -/

theorem pass_loop_init_cells (rnd : Nat → Nat) (above : Nat → Bool) (cells : List Nat) :
    ∀ s : Conceal, (pass_loop rnd above .INIT s cells).2 = cells := by
  induction cells with
  | nil => intro s; rfl
  | cons coef rest ih =>
    intro s
    show coef :: (pass_loop rnd above .INIT { s with total := incr s.total coef } rest).2 =
      coef :: rest
    rw [ih]

/-- C17: the WRITE and READ passes, and with them `current_size`, `read` and
`write`, leave the table `total` as it was; the INIT and READ passes leave
every coefficient of the array as it was. -/
theorem C17_frame (rnd : Nat → Nat) (above : Nat → Bool) (null_on_zero : Bool) (s : Conceal)
    (P cells : List Nat) :
    (pass rnd above .WRITE s cells).1.total = s.total ∧
    (pass rnd above .READ s cells).1.total = s.total ∧
    (current_size s cells).1.total = s.total ∧
    (∃ r, read null_on_zero s cells = some r ∧ r.1.total = s.total) ∧
    (pass_write rnd above s P cells).1.total = s.total ∧
    (∀ w, write rnd above s P cells = some w → w.1.total = s.total) ∧
    (pass rnd above .INIT s cells).2 = cells ∧
    (pass rnd above .READ s cells).2 = cells := by
  have hw : ∀ t : Conceal, (pass rnd above .WRITE t cells).1.total = t.total := fun t =>
    (pass_loop_write_total rnd above cells (pass_init .WRITE t)).1
  have hr : ∀ (f : Nat → Nat) (g : Nat → Bool) (t : Conceal),
      (pass f g .READ t cells).1.total = t.total := fun f g t =>
    (pass_loop_read_total f g cells (pass_init .READ t)).1
  refine ⟨hw s, hr rnd above s, hr _ _ { s with msg := none }, ?_,
    hw { s with msg := some P }, ?_, pass_loop_init_cells rnd above cells _,
    pass_loop_read_cells rnd above cells _⟩
  · obtain ⟨r, r1, _, _, r4, _⟩ := read_ok null_on_zero s cells
    refine ⟨r, r1, ?_⟩
    rw [r4]
    exact (pass_loop_read_total _ _ cells _).1
  · intro w h
    rw [(write_some rnd above s P cells w h).1]
    exact hw { s with msg := some P }

/-! ## The random source and the payload -/

/-- While the payload lasts, `bit_write` reads no random number: its result
is the same for every random source, and `rnd_calls` stays as it was. -/
theorem bit_write_rnd_irrel (rnd1 rnd2 : Nat → Nat) (above1 above2 : Nat → Bool)
    (w : Conceal) (c : Nat) (hm : w.msg_byte < msg_size w) :
    bit_write rnd1 above1 w c = bit_write rnd2 above2 w c ∧
      (bit_write rnd1 above1 w c).1.rnd_calls = w.rnd_calls := by
  unfold bit_write
  dsimp only
  split_ifs <;> exact ⟨rfl, rfl⟩

/-- Once the payload is used up, `bit_write` leaves the cursor and the
payload alone. -/
theorem bit_write_frozen (rnd : Nat → Nat) (above : Nat → Bool) (w : Conceal) (c : Nat)
    (hm : ¬ w.msg_byte < msg_size w) :
    (bit_write rnd above w c).1.msg_byte = w.msg_byte ∧
      msg_size (bit_write rnd above w c).1 = msg_size w := by
  unfold bit_write
  dsimp only
  split_ifs <;> exact ⟨rfl, rfl⟩

theorem pass_loop_write_frozen (rnd : Nat → Nat) (above : Nat → Bool) (cells : List Nat) :
    ∀ w : Conceal, ¬ w.msg_byte < msg_size w →
      ¬ (pass_loop rnd above .WRITE w cells).1.msg_byte < msg_size w := by
  induction cells with
  | nil => intro w hm; exact hm
  | cons c rest ih =>
    intro w hm
    obtain ⟨f1, f2⟩ := bit_write_frozen rnd above w c hm
    rw [pass_loop_write_cons]
    dsimp only
    have := ih (bit_write rnd above w c).1 (by rw [f1, f2]; exact hm)
    rw [f2] at this
    exact this

/-- The cells left by the pass over a prefix of the array are the prefix of
the cells left by the pass over the array. -/
theorem pass_loop_take (rnd : Nat → Nat) (above : Nat → Bool) (type : pass_t)
    (cells : List Nat) :
    ∀ (s : Conceal) (n : Nat),
      (pass_loop rnd above type s (cells.take n)).2 =
        (pass_loop rnd above type s cells).2.take n := by
  induction cells with
  | nil =>
    intro s n
    rw [List.take_nil]
    show ([] : List Nat) = List.take n []
    rw [List.take_nil]
  | cons c rest ih =>
    intro s n
    cases n with
    | zero => rfl
    | succ n =>
      rw [List.take_succ_cons]
      show (pass_cell rnd above type s c).2 ::
          (pass_loop rnd above type (pass_cell rnd above type s c).1 (rest.take n)).2 =
        ((pass_cell rnd above type s c).2 ::
          (pass_loop rnd above type (pass_cell rnd above type s c).1 rest).2).take (n + 1)
      rw [List.take_succ_cons, ih]

/-- Two WRITE passes with different random sources agree on state and cells
through every cell that is visited while the payload lasts. -/
theorem write_deterministic (rnd1 rnd2 : Nat → Nat) (above1 above2 : Nat → Bool)
    (cells : List Nat) :
    ∀ (w : Conceal) (n : Nat),
      (pass_loop rnd1 above1 .WRITE w (cells.take n)).1.msg_byte < msg_size w →
      pass_loop rnd1 above1 .WRITE w (cells.take (n + 1)) =
        pass_loop rnd2 above2 .WRITE w (cells.take (n + 1)) ∧
      (pass_loop rnd1 above1 .WRITE w (cells.take (n + 1))).1.rnd_calls = w.rnd_calls := by
  induction cells with
  | nil =>
    intro w n _
    rw [List.take_nil]
    exact ⟨rfl, rfl⟩
  | cons c rest ih =>
    intro w n h
    have hm : w.msg_byte < msg_size w := by
      by_contra hn
      exact pass_loop_write_frozen rnd1 above1 _ w hn h
    obtain ⟨e1, e2⟩ := bit_write_rnd_irrel rnd1 rnd2 above1 above2 w c hm
    have hsz : msg_size (bit_write rnd1 above1 w c).1 = msg_size w :=
      msg_size_congr _ _ (write_bit_total rnd1 above1 w c).2
    rw [List.take_succ_cons, pass_loop_write_cons, pass_loop_write_cons, ← e1]
    cases n with
    | zero =>
      rw [List.take_zero]
      exact ⟨rfl, e2⟩
    | succ n =>
      rw [List.take_succ_cons, pass_loop_write_cons] at h
      dsimp only at h
      obtain ⟨i1, i2⟩ := ih (bit_write rnd1 above1 w c).1 n (by rw [hsz]; exact h)
      dsimp only
      rw [i1] at i2 ⊢
      exact ⟨rfl, i2.trans e2⟩

/-- C11: take two WRITE passes of the same payload over the same cover with
any two random sources.  If the cell with index `n` is visited while payload
is left (`msg_byte < |P|` after the first `n` cells), then the cells with
indices `0 .. n` of the two coefficient arrays are the same, the two states
after these cells are the same, and no random number has been read so far.
The cell at which the last payload bit is consumed is such a cell, and the
random source is read only at cells visited after `msg_byte` has reached
`|P|`. -/
theorem C11_determinism (rnd1 rnd2 : Nat → Nat) (above1 above2 : Nat → Bool) (s : Conceal)
    (P cells : List Nat) (n : Nat)
    (h : (pass_write rnd1 above1 s P (cells.take n)).1.msg_byte < P.length) :
    (pass_write rnd1 above1 s P cells).2.take (n + 1) =
      (pass_write rnd2 above2 s P cells).2.take (n + 1) ∧
    (pass_write rnd1 above1 s P (cells.take (n + 1))).1 =
      (pass_write rnd2 above2 s P (cells.take (n + 1))).1 ∧
    (pass_write rnd1 above1 s P (cells.take (n + 1))).1.rnd_calls = s.rnd_calls := by
  obtain ⟨d1, d2⟩ := write_deterministic rnd1 rnd2 above1 above2 cells
    (pass_init .WRITE { s with msg := some P }) n h
  unfold pass_write pass
  rw [← pass_loop_take, ← pass_loop_take, d1]
  refine ⟨rfl, rfl, ?_⟩
  rw [← d1]
  exact d2

set_option maxRecDepth 100000 in
theorem C11_determinism_witness :
    (pass_write (fun _ => 0) (fun _ => false)
        (with_total (histogram [3, 4, 3, 4, 3, 4, 3, 4, 3, 4, 3, 4, 3, 4, 3, 4, 3, 4])) [165]
        ([3, 4, 3, 4, 3, 4, 3, 4, 3, 4, 3, 4, 3, 4, 3, 4, 3, 4].take 5)).1.msg_byte
      < [165].length ∧
    (pass_write (fun _ => 0) (fun _ => false)
        (with_total (histogram [3, 4, 3, 4, 3, 4, 3, 4, 3, 4, 3, 4, 3, 4, 3, 4, 3, 4])) [165]
        [3, 4, 3, 4, 3, 4, 3, 4, 3, 4, 3, 4, 3, 4, 3, 4, 3, 4]).2.take (5 + 1) =
      (pass_write (fun _ => 65535) (fun _ => true)
        (with_total (histogram [3, 4, 3, 4, 3, 4, 3, 4, 3, 4, 3, 4, 3, 4, 3, 4, 3, 4])) [165]
        [3, 4, 3, 4, 3, 4, 3, 4, 3, 4, 3, 4, 3, 4, 3, 4, 3, 4]).2.take (5 + 1) :=
  ⟨by decide,
    (C11_determinism (fun _ => 0) (fun _ => 65535) (fun _ => false) (fun _ => true)
      (with_total (histogram [3, 4, 3, 4, 3, 4, 3, 4, 3, 4, 3, 4, 3, 4, 3, 4, 3, 4])) [165]
      [3, 4, 3, 4, 3, 4, 3, 4, 3, 4, 3, 4, 3, 4, 3, 4, 3, 4] 5 (by decide)).1⟩

/-! ## Distortion of a cell -/

theorem correlation_signed (u : Nat) (hu : u < 65536) (h : correlation u ≠ 0) :
    (signed16 (correlation u) - signed16 u ≤ 1 ∧ signed16 u - signed16 (correlation u) ≤ 1) ∧
      (signed16 (correlation u) < 0 ↔ signed16 u < 0) := by
  unfold signed16
  rw [correlation_eq u hu] at h ⊢
  split_ifs at h ⊢ <;> omega

/-- The value that `bit_write` leaves in a cell. -/
theorem bit_write_cell (rnd : Nat → Nat) (above : Nat → Bool) (w : Conceal) (c : Nat)
    (hc : c < 65536) :
    (bit_write rnd above w c).2 = c ∨
      ((bit_write rnd above w c).2 = correlation c ∧ live w.total c) := by
  by_cases h : bit_test w c (correlation c) = INVALID
  · rw [bit_write_invalid rnd above w c h]
    exact Or.inl rfl
  · rcases (bit_write_valid rnd above w c hc h).1 with e | e
    · exact Or.inl e
    · exact Or.inr ⟨e, live_of_bit_test w c h⟩

theorem distortion_ok_step (rnd : Nat → Nat) (above : Nat → Bool) (w : Conceal) (c : Nat)
    (hc : c < 65536) : distortion_ok w.total c (bit_write rnd above w c).2 := by
  unfold distortion_ok
  rcases bit_write_cell rnd above w c hc with e | ⟨e, hl⟩
  · rw [e]
    exact ⟨Or.inl rfl, ⟨by omega, by omega⟩, Iff.rfl, Iff.rfl, fun _ => rfl⟩
  · rw [e]
    have hc0 : c ≠ 0 := fun hx => hl (Or.inl hx)
    have hd0 : correlation c ≠ 0 := fun hx => hl (Or.inr (Or.inl hx))
    have hdt : w.total (correlation c) ≠ 0 := fun hx => hl (Or.inr (Or.inr (Or.inr hx)))
    obtain ⟨s1, s2⟩ := correlation_signed c hc hd0
    refine ⟨Or.inr rfl, s1, s2, ⟨fun hx => absurd hx hd0, fun hx => absurd hx hc0⟩, ?_⟩
    intro hx
    rcases hx with hx | hx
    · exact absurd hx hd0
    · exact absurd hx hdt

theorem write_distortion (rnd : Nat → Nat) (above : Nat → Bool) (total : Nat → Nat)
    (cells : List Nat) :
    ∀ w : Conceal, (∀ c ∈ cells, c < 65536) → w.total = total →
      List.Forall₂ (distortion_ok total) cells (pass_loop rnd above .WRITE w cells).2 := by
  induction cells with
  | nil => intro w _ _; exact List.Forall₂.nil
  | cons c rest ih =>
    intro w hcells ht
    rw [pass_loop_write_cons]
    refine List.Forall₂.cons ?_ ?_
    · rw [← ht]
      exact distortion_ok_step rnd above w c (hcells c (List.mem_cons_self _ _))
    · exact ih _ (fun x hx => hcells x (List.mem_cons_of_mem _ hx))
        ((write_bit_total rnd above w c).1.trans ht)

/-- C16: after a WRITE pass, whatever the payload and the random draws, every
cell holds its former value or the partner of it; so it differs from the
former value by at most one as a signed 16-bit number and has the same sign,
a zero stays zero and nothing else becomes zero, and a cell whose value has
no partner, or whose partner has total zero, is as it was. -/
theorem C16_bounded_distortion (rnd : Nat → Nat) (above : Nat → Bool) (s : Conceal)
    (P cells : List Nat) (hcells : ∀ c ∈ cells, c < 65536) :
    List.Forall₂
      (fun c v =>
        (v = c ∨ v = correlation c) ∧
        (signed16 v - signed16 c ≤ 1 ∧ signed16 c - signed16 v ≤ 1) ∧
        (signed16 v < 0 ↔ signed16 c < 0) ∧
        (v = 0 ↔ c = 0) ∧
        (correlation c = 0 ∨ s.total (correlation c) = 0 → v = c))
      cells (pass_write rnd above s P cells).2 :=
  write_distortion rnd above s.total cells (pass_init .WRITE { s with msg := some P })
    hcells rfl

theorem C16_bounded_distortion_witness :
    (∀ c ∈ [3, 4, 0, 65535, 7], c < 65536) ∧
    List.Forall₂
      (fun c v =>
        (v = c ∨ v = correlation c) ∧
        (signed16 v - signed16 c ≤ 1 ∧ signed16 c - signed16 v ≤ 1) ∧
        (signed16 v < 0 ↔ signed16 c < 0) ∧
        (v = 0 ↔ c = 0) ∧
        (correlation c = 0 ∨
          (with_total (histogram [3, 4, 0, 65535, 7])).total (correlation c) = 0 → v = c))
      [3, 4, 0, 65535, 7]
      (pass_write (fun _ => 0) (above_entropy 0 0) (with_total (histogram [3, 4, 0, 65535, 7]))
        [1] [3, 4, 0, 65535, 7]).2 :=
  ⟨by decide,
    C16_bounded_distortion (fun _ => 0) (above_entropy 0 0)
      (with_total (histogram [3, 4, 0, 65535, 7])) [1] [3, 4, 0, 65535, 7] (by decide)⟩

/-! ## The histogram after the WRITE pass -/

theorem not_live_of_ne (total : Nat → Nat) (c u : Nat) (hu : u < 65536)
    (hc : ¬ live total c) (hl : live total u) : c ≠ u ∧ c ≠ correlation u := by
  constructor
  · intro e
    rw [e] at hc
    exact hc hl
  · intro e
    rw [e] at hc
    exact hc (live_correlation total u hu hl)

/-- The WRITE pass fills the two buckets of every live pair exactly, counts
in `occur` the values it leaves in the cells, and leaves alone the cells
whose value is not live. -/
theorem write_balance (rnd : Nat → Nat) (above : Nat → Bool) (cells : List Nat) :
    ∀ w : Conceal, (∀ c ∈ cells, c < 65536) → (∀ u, w.occur u ≤ w.total u) →
      (∀ u, w.total u < 2 ^ 32) →
      (∀ u, u < 65536 → live w.total u →
        w.occur u + w.occur (correlation u) + cells.count u + cells.count (correlation u) =
          w.total u + w.total (correlation u)) →
      (∀ u, u < 65536 → live w.total u →
        (pass_loop rnd above .WRITE w cells).1.occur u +
            (pass_loop rnd above .WRITE w cells).1.occur (correlation u) =
          w.total u + w.total (correlation u) ∧
        (pass_loop rnd above .WRITE w cells).1.occur u ≤ w.total u ∧
        (pass_loop rnd above .WRITE w cells).1.occur u =
          w.occur u + (pass_loop rnd above .WRITE w cells).2.count u) ∧
      (∀ u, ¬ live w.total u →
        (pass_loop rnd above .WRITE w cells).2.count u = cells.count u) := by
  induction cells with
  | nil =>
    intro w _ h2 _ h4
    constructor
    · intro u hu hl
      have := h4 u hu hl
      simp only [List.count_nil, Nat.add_zero] at this
      exact ⟨this, h2 u, by show w.occur u = w.occur u + 0; omega⟩
    · intro u _
      rfl
  | cons c rest ih =>
    intro w hcells h2 h3 h4
    have hc : c < 65536 := hcells c (List.mem_cons_self _ _)
    have hrest : ∀ x ∈ rest, x < 65536 := fun x hx => hcells x (List.mem_cons_of_mem _ hx)
    rw [pass_loop_write_cons]
    dsimp only
    by_cases h : bit_test w c (correlation c) = INVALID
    · have hnl : ¬ live w.total c := fun hl => hl ((bit_test_invalid_iff w c _).mp h)
      rw [bit_write_invalid rnd above w c h]
      dsimp only
      obtain ⟨i1, i2⟩ := ih w hrest h2 h3 (by
        intro u hu hl
        have hp := h4 u hu hl
        obtain ⟨n1, n2⟩ := not_live_of_ne w.total c u hu hnl hl
        rw [count_cons_eq, count_cons_eq, if_neg n1, if_neg n2] at hp
        omega)
      constructor
      · intro u hu hl
        obtain ⟨a1, a2, a3⟩ := i1 u hu hl
        obtain ⟨n1, _⟩ := not_live_of_ne w.total c u hu hnl hl
        rw [count_cons_eq, if_neg n1]
        exact ⟨a1, a2, by omega⟩
      · intro u hl
        rw [count_cons_eq, count_cons_eq, i2 u hl]
    · obtain ⟨hv, hbI, hocc, _, hfull, hnf, _⟩ := bit_write_valid rnd above w c hc h
      have htot := (write_bit_total rnd above w c).1
      have hl : live w.total c := live_of_bit_test w c h
      have hlv : live w.total (bit_write rnd above w c).2 := live_of_bit_test w _ hbI
      have hd0 : correlation c ≠ 0 := fun hx => hl (Or.inr (Or.inl hx))
      have hinv : correlation (correlation c) = c := correlation_invol c hc hd0
      have hroom : w.occur (bit_write rnd above w c).2 <
          w.total (bit_write rnd above w c).2 := by
        by_cases hoc : w.occur c < w.total c
        · exact hnf hoc
        · have e := hfull (Nat.le_of_not_lt hoc)
          have hp := h4 c hc hl
          rw [count_cons_eq, if_pos rfl] at hp
          have := h2 c
          rw [e]
          omega
      have hw32 : w.occur (bit_write rnd above w c).2 + 1 < 2 ^ 32 := by
        have := h3 (bit_write rnd above w c).2
        omega
      have hind : ∀ u, u < 65536 → live w.total u →
          (if u = (bit_write rnd above w c).2 then 1 else 0 : Nat) +
            (if correlation u = (bit_write rnd above w c).2 then 1 else 0) =
          (if c = u then 1 else 0) + (if c = correlation u then 1 else 0) := by
        intro u hu hlu
        have hud0 : correlation u ≠ 0 := fun hx => hlu (Or.inr (Or.inl hx))
        have huinv : correlation (correlation u) = u := correlation_invol u hu hud0
        rcases hv with e | e
        · rw [e]
          have e1 : (if u = c then 1 else 0 : Nat) = if c = u then 1 else 0 :=
            if_congr eq_comm rfl rfl
          have e2 : (if correlation u = c then 1 else 0 : Nat) =
              if c = correlation u then 1 else 0 := if_congr eq_comm rfl rfl
          rw [e1, e2]
        · rw [e]
          have e1 : (if u = correlation c then 1 else 0 : Nat) =
              if c = correlation u then 1 else 0 :=
            if_congr ⟨fun hx => by rw [hx, hinv], fun hx => by rw [hx, huinv]⟩ rfl rfl
          have e2 : (if correlation u = correlation c then 1 else 0 : Nat) =
              if c = u then 1 else 0 :=
            if_congr ⟨fun hx => by rw [← hinv, ← hx, huinv], fun hx => by rw [hx]⟩ rfl rfl
          rw [e1, e2]
          omega
      obtain ⟨i1, i2⟩ := ih (bit_write rnd above w c).1 hrest
        (by
          intro u
          rw [hocc, htot, incr_add _ _ _ hw32]
          have hu := h2 u
          split_ifs with huv
          · rw [huv]
            omega
          · omega)
        (by
          intro u
          rw [htot]
          exact h3 u)
        (by
          intro u hu hlu
          rw [htot] at hlu ⊢
          have hp := h4 u hu hlu
          have hi := hind u hu hlu
          rw [count_cons_eq, count_cons_eq] at hp
          rw [hocc, incr_add _ _ _ hw32, incr_add _ _ _ hw32]
          omega)
      rw [htot] at i1 i2
      constructor
      · intro u hu hlu
        obtain ⟨a1, a2, a3⟩ := i1 u hu hlu
        rw [hocc, incr_add _ _ _ hw32] at a3
        rw [count_cons_eq]
        have e1 : (if (bit_write rnd above w c).2 = u then 1 else 0 : Nat) =
            if u = (bit_write rnd above w c).2 then 1 else 0 := if_congr eq_comm rfl rfl
        rw [e1]
        exact ⟨a1, a2, by omega⟩
      · intro u hnl
        have n1 : (bit_write rnd above w c).2 ≠ u := fun e => hnl (e ▸ hlv)
        have n2 : c ≠ u := fun e => hnl (e ▸ hl)
        rw [count_cons_eq, count_cons_eq, if_neg n1, if_neg n2, i2 u hnl]


theorem histogram_lt (cells : List Nat) (hlen : cells.length < 2 ^ 32) (u : Nat) :
    histogram cells u < 2 ^ 32 := by
  rw [histogram_count cells hlen u]
  have := List.count_le_length u cells
  omega

/-- C13: when `total` is the histogram of the cover, then after a complete
WRITE pass, whatever the payload (fitting or not) and the random draws, the
number of cells equal to `u` in the coefficient array is `total[u]` for
every `u`, and `occur[u] = total[u]` for every paired `u` whose total and
whose partner's total are not zero. -/
theorem C13_histogram_preserved (rnd : Nat → Nat) (above : Nat → Bool) (s : Conceal)
    (P cells : List Nat) (hcells : ∀ c ∈ cells, c < 65536)
    (htot : ∀ u, s.total u = cells.count u) (h32 : ∀ u, s.total u < 2 ^ 32) :
    (∀ u, (pass_write rnd above s P cells).2.count u = s.total u) ∧
    (∀ u, u < 65536 → correlation u ≠ 0 → s.total u ≠ 0 → s.total (correlation u) ≠ 0 →
      (pass_write rnd above s P cells).1.occur u = s.total u) := by
  obtain ⟨b1, b2⟩ := write_balance rnd above cells (pass_init .WRITE { s with msg := some P })
    hcells (fun _ => Nat.zero_le _) h32
    (fun u _ _ => by
      show 0 + 0 + cells.count u + cells.count (correlation u) =
        s.total u + s.total (correlation u)
      rw [htot u, htot (correlation u)]
      omega)
  have hbig : ∀ u, 65536 ≤ u → s.total u = 0 := by
    intro u hu
    rw [htot u]
    exact List.count_eq_zero_of_not_mem (fun hm => by have := hcells u hm; omega)
  have hocc : ∀ u, u < 65536 → live s.total u →
      (pass_write rnd above s P cells).1.occur u = s.total u ∧
        (pass_write rnd above s P cells).2.count u = s.total u := by
    intro u hu hl
    obtain ⟨a1, a2, a3⟩ := b1 u hu hl
    have hlc := live_correlation s.total u hu hl
    have hd0 : correlation u ≠ 0 := fun hx => hl (Or.inr (Or.inl hx))
    obtain ⟨_, c2, _⟩ := b1 (correlation u) (correlation_lt u hu) hlc
    have a1' : (pass_write rnd above s P cells).1.occur u +
        (pass_write rnd above s P cells).1.occur (correlation u) =
        s.total u + s.total (correlation u) := a1
    have a2' : (pass_write rnd above s P cells).1.occur u ≤ s.total u := a2
    have a3' : (pass_write rnd above s P cells).1.occur u =
        0 + (pass_write rnd above s P cells).2.count u := a3
    have c2' : (pass_write rnd above s P cells).1.occur (correlation u) ≤
        s.total (correlation u) := c2
    constructor <;> omega
  constructor
  · intro u
    by_cases hl : live s.total u
    · have hu : u < 65536 := by
        by_contra hn
        exact hl (Or.inr (Or.inr (Or.inl (hbig u (by omega)))))
      exact (hocc u hu hl).2
    · have : (pass_write rnd above s P cells).2.count u = cells.count u := b2 u hl
      rw [this, htot u]
  · intro u hu h1 h2 h3
    have hl : live s.total u := by
      intro hx
      rcases hx with hx | hx | hx | hx
      · rw [hx] at h1
        exact h1 (by decide)
      · exact h1 hx
      · exact h2 hx
      · exact h3 hx
    exact (hocc u hu hl).1

theorem C13_histogram_preserved_witness :
    ((∀ c ∈ [3, 4, 0, 4, 3, 3, 6], c < 65536) ∧
      (∀ u, (with_total (histogram [3, 4, 0, 4, 3, 3, 6])).total u =
        [3, 4, 0, 4, 3, 3, 6].count u) ∧
      (∀ u, (with_total (histogram [3, 4, 0, 4, 3, 3, 6])).total u < 2 ^ 32)) ∧
    (pass_write (fun _ => 0) (above_entropy 0 0) (with_total (histogram [3, 4, 0, 4, 3, 3, 6]))
      [5] [3, 4, 0, 4, 3, 3, 6]).2.count 3 =
      (with_total (histogram [3, 4, 0, 4, 3, 3, 6])).total 3 :=
  ⟨⟨by decide, fun u => histogram_count _ (by decide) u, fun u => histogram_lt _ (by decide) u⟩,
    (C13_histogram_preserved (fun _ => 0) (above_entropy 0 0)
      (with_total (histogram [3, 4, 0, 4, 3, 3, 6])) [5] [3, 4, 0, 4, 3, 3, 6] (by decide)
      (fun u => histogram_count _ (by decide) u)
      (fun u => histogram_lt _ (by decide) u)).1 3⟩

/-! ## The INIT pass -/

/-- The INIT loop counts modulo `2 ^ 32`. -/
theorem init_total_mod (rnd : Nat → Nat) (above : Nat → Bool) (cells : List Nat) :
    ∀ s : Conceal, (∀ u, s.total u < 2 ^ 32) →
      ∀ u, (pass_loop rnd above .INIT s cells).1.total u =
        (s.total u + cells.count u) % 2 ^ 32 := by
  induction cells with
  | nil =>
    intro s h u
    show s.total u = (s.total u + 0) % 2 ^ 32
    rw [Nat.add_zero, Nat.mod_eq_of_lt (h u)]
  | cons c rest ih =>
    intro s h u
    have hlt : ∀ x, incr s.total c x < 2 ^ 32 := by
      intro x
      rw [incr_apply]
      split_ifs
      · exact Nat.mod_lt _ (by norm_num)
      · exact h x
    rw [pass_loop_init_cons, ih _ hlt u]
    show (incr s.total c u + rest.count u) % 2 ^ 32 = _
    rw [incr_apply, count_cons_eq]
    unfold u32
    by_cases huc : u = c
    · rw [if_pos huc, if_pos huc.symm, huc]
      omega
    · rw [if_neg huc, if_neg (fun e => huc e.symm)]
      rfl

theorem table_sum_count (cells : List Nat) (hcells : ∀ c ∈ cells, c < 65536) :
    table_sum (fun u => cells.count u) = cells.length := by
  induction cells with
  | nil =>
    show table_sum (fun _ => 0) = 0
    exact table_sum_zero
  | cons c rest ih =>
    have hc : c ∈ Finset.range 65536 :=
      Finset.mem_range.mpr (hcells c (List.mem_cons_self _ _))
    have e : (fun u => (c :: rest).count u) =
        fun u => rest.count u + if c = u then 1 else 0 := by
      funext u
      exact count_cons_eq u c rest
    rw [e]
    unfold table_sum at ih ⊢
    rw [Finset.sum_add_distrib, ih (fun x hx => hcells x (List.mem_cons_of_mem _ hx)),
      Finset.sum_ite_eq, if_pos hc, List.length_cons]

/-- C18, as the code has it: after the INIT pass over an array in which no
value occurs `2 ^ 32` times or more, `total[u]` is the number of
coefficients equal to `u` for every `u`, and the entries of `total` add up
to the number of coefficients, whatever `total` held before.  (An entry
counts modulo `2 ^ 32`.) -/
theorem C18_histogram_pass (rnd : Nat → Nat) (above : Nat → Bool) (s : Conceal)
    (cells : List Nat) (hcells : ∀ c ∈ cells, c < 65536)
    (hcount : ∀ u, cells.count u < 2 ^ 32) :
    (∀ u, (pass rnd above .INIT s cells).1.total u = cells.count u) ∧
    table_sum (pass rnd above .INIT s cells).1.total = cells.length := by
  have h : ∀ u, (pass rnd above .INIT s cells).1.total u = cells.count u := by
    intro u
    unfold pass
    rw [init_total_mod rnd above cells (pass_init .INIT s) (fun _ => by
      show 0 < 2 ^ 32
      norm_num) u]
    show (0 + cells.count u) % 2 ^ 32 = cells.count u
    rw [Nat.zero_add, Nat.mod_eq_of_lt (hcount u)]
  refine ⟨h, ?_⟩
  have e : (pass rnd above .INIT s cells).1.total = fun u => cells.count u := funext h
  rw [e]
  exact table_sum_count cells hcells

theorem C18_histogram_pass_witness :
    ((∀ c ∈ [3, 4, 0, 65535, 3], c < 65536) ∧
      (∀ u, [3, 4, 0, 65535, 3].count u < 2 ^ 32)) ∧
    table_sum (pass (fun _ => 0) (fun _ => false) .INIT (with_total fun _ => 7)
      [3, 4, 0, 65535, 3]).1.total = [3, 4, 0, 65535, 3].length :=
  ⟨⟨by decide, fun u => by
      have := List.count_le_length u [3, 4, 0, 65535, 3]
      have h5 : [3, 4, 0, 65535, 3].length = 5 := rfl
      omega⟩,
    (C18_histogram_pass (fun _ => 0) (fun _ => false) (with_total fun _ => 7)
      [3, 4, 0, 65535, 3] (by decide) (fun u => by
        have := List.count_le_length u [3, 4, 0, 65535, 3]
        have h5 : [3, 4, 0, 65535, 3].length = 5 := rfl
        omega)).2⟩

/-- The INIT pass over `n` zero coefficients leaves `n` modulo `2 ^ 32` in
`total[0]`. -/
theorem init_zeros (rnd : Nat → Nat) (above : Nat → Bool) (s : Conceal) (n : Nat) :
    (pass rnd above .INIT s (List.replicate n 0)).1.total 0 = n % 2 ^ 32 := by
  unfold pass
  rw [init_total_mod rnd above _ (pass_init .INIT s) (fun _ => by
    show 0 < 2 ^ 32
    norm_num) 0, List.count_replicate_self]
  show (0 + n) % 2 ^ 32 = n % 2 ^ 32
  rw [Nat.zero_add]

/-- C18 fails as stated: over an array of `2 ^ 32` zero coefficients (the
size of a 32768 x 32768 image of four components) the INIT pass ends with
`total[0] = 0`. -/
theorem C18_histogram_wraps :
    (pass (fun _ => 0) (fun _ => false) .INIT (with_total fun _ => 0)
      (List.replicate (2 ^ 32) 0)).1.total 0 = 0 ∧
    (List.replicate (2 ^ 32) 0).count 0 = 2 ^ 32 :=
  ⟨(init_zeros _ _ _ _).trans (Nat.mod_self _), List.count_replicate_self _ _⟩

/-! ## The quota in 32 bits -/

/-- As long as `count[coef]` and `total[coef]` are below `2 ^ 16` the two
shifts of `bit_test` do not wrap and the answer is that of the exact
comparison. -/
theorem bit_test_exact_eq (s : Conceal) (coef corr : Nat) (h1 : s.count coef < 2 ^ 16)
    (h2 : s.total coef < 2 ^ 16) : bit_test s coef corr = bit_test_exact s coef corr := by
  unfold bit_test bit_test_exact
  have e1 : u32 (s.count coef <<< 16) = s.count coef * 2 ^ 16 := by
    rw [Nat.shiftLeft_eq]
    exact u32_of_lt (by omega)
  have e2 : u32 (s.total coef <<< 16) = s.total coef * 2 ^ 16 := by
    rw [Nat.shiftLeft_eq]
    exact u32_of_lt (by omega)
  simp only [e1, e2, and_one_eq]

/-- C14 fails in the code: with `total[3] = 65536`, `total[4] = 1` and
nothing seen yet, `total[3] << 16` wraps to 0, so the quota is 0 and
`bit_test (3, 4)` answers PADDING, where the exact comparison
`0 < 65536 * 2^16 / 1` answers the bit 1. -/
theorem C14_quota_shift_wraps :
    (with_total fun u => if u = 3 then 65536 else if u = 4 then 1 else 0).total 3 < 2 ^ 32 ∧
    u32 ((with_total fun u => if u = 3 then 65536 else if u = 4 then 1 else 0).total 3 <<< 16)
      = 0 ∧
    bit_test (with_total fun u => if u = 3 then 65536 else if u = 4 then 1 else 0) 3 4
      = PADDING ∧
    bit_test_exact (with_total fun u => if u = 3 then 65536 else if u = 4 then 1 else 0) 3 4
      = 1 := by
  refine ⟨by decide, by decide, by decide, by decide⟩

end JpegConceal
